import Mathlib

/-!
A shallow embedding of the term-rewriting engine used by Swift's requirement
machine (the rewrite system, Knuth-Bendix completion, property-map layout
unification, homotopy reduction, and the concrete-contraction pre-pass),
together with theorems settling a list of specification claims.

The embedding follows the C++ sources.  Entities that live outside the
rewriting core (protocol declarations, identifiers, interned concrete types,
layout constraints) are represented by natural-number handles: the C++ code
interns them and compares handles, so this is faithful to the way the
rewriting core observes them.  Whenever a helper whose implementation is not
part of the sources had to be reconstructed, its doc comment says so.
-/

set_option maxHeartbeats 1000000

namespace Swift

/-! ### Three-way comparisons

The C++ code works with `int` comparison results; we use `Ordering`.
`natCmp` plays the role of integer comparisons on interned handles,
depths, indices and sizes. -/

/-- Three-way comparison of natural numbers. -/
def natCmp (a b : Nat) : Ordering :=
  if a < b then .lt else if b < a then .gt else .eq

theorem natCmp_eq_iff {a b : Nat} : natCmp a b = .eq ↔ a = b := by
  unfold natCmp; split <;> [skip; split] <;> simp <;> omega

theorem natCmp_lt_iff {a b : Nat} : natCmp a b = .lt ↔ a < b := by
  unfold natCmp; split <;> [skip; split] <;> simp <;> omega

theorem natCmp_gt_iff {a b : Nat} : natCmp a b = .gt ↔ b < a := by
  unfold natCmp; split <;> [skip; split] <;> simp <;> omega

theorem natCmp_swap (a b : Nat) : natCmp a b = (natCmp b a).swap := by
  unfold natCmp
  rcases Nat.lt_trichotomy a b with h | h | h
  · simp [h, Nat.lt_asymm h, Ordering.swap]
  · subst h; simp [Nat.lt_irrefl, Ordering.swap]
  · simp [h, Nat.lt_asymm h, Ordering.swap]

theorem natCmp_self (a : Nat) : natCmp a a = .eq := by
  simp [natCmp_eq_iff]

theorem then_eq_iff {x y : Ordering} :
    x.then y = .eq ↔ x = .eq ∧ y = .eq := by
  cases x <;> simp [Ordering.then]

theorem then_lt_iff {x y : Ordering} :
    x.then y = .lt ↔ x = .lt ∨ (x = .eq ∧ y = .lt) := by
  cases x <;> simp [Ordering.then]

theorem then_gt_iff {x y : Ordering} :
    x.then y = .gt ↔ x = .gt ∨ (x = .eq ∧ y = .gt) := by
  cases x <;> simp [Ordering.then]

theorem then_swap (x y : Ordering) :
    (x.then y).swap = x.swap.then y.swap := by
  cases x <;> cases y <;> rfl

/-- Bundle of the properties making a three-way comparison a linear order. -/
structure CmpLaws {α : Type} (f : α → α → Ordering) : Prop where
  eq_iff : ∀ a b, f a b = .eq ↔ a = b
  swapEq : ∀ a b, f a b = (f b a).swap
  lt_trans : ∀ a b c, f a b = .lt → f b c = .lt → f a c = .lt

theorem CmpLaws.refl {f : α → α → Ordering} (h : CmpLaws f) (a : α) :
    f a a = .eq := (h.eq_iff a a).mpr rfl

theorem CmpLaws.gt_iff_lt {f : α → α → Ordering} (h : CmpLaws f) (a b : α) :
    f a b = .gt ↔ f b a = .lt := by
  rw [h.swapEq a b]; cases f b a <;> simp [Ordering.swap]

theorem CmpLaws.gt_trans {f : α → α → Ordering} (h : CmpLaws f)
    {a b c : α} (h1 : f a b = .gt) (h2 : f b c = .gt) : f a c = .gt := by
  rw [h.gt_iff_lt] at h1 h2 ⊢
  exact h.lt_trans _ _ _ h2 h1

theorem CmpLaws.lt_irrefl {f : α → α → Ordering} (h : CmpLaws f) (a : α) :
    ¬ f a a = .lt := by
  simp [h.refl a]

theorem natCmpLaws : CmpLaws natCmp where
  eq_iff := fun _ _ => natCmp_eq_iff
  swapEq := natCmp_swap
  lt_trans := fun a b c h1 h2 => by
    rw [natCmp_lt_iff] at h1 h2 ⊢; omega

/-- Lexicographic comparison of lists, a shorter list that is a prefix of a
longer one comparing less.  Used for pairwise protocol-list and term
comparisons (where the caller compares lengths first, so the lists are in
fact of equal length). -/
def listCmp {α : Type} (f : α → α → Ordering) : List α → List α → Ordering
  | [], [] => .eq
  | [], _ :: _ => .lt
  | _ :: _, [] => .gt
  | a :: as, b :: bs => (f a b).then (listCmp f as bs)

theorem listCmpLaws {α : Type} {f : α → α → Ordering} (hf : CmpLaws f) :
    CmpLaws (listCmp f) := by
  constructor
  · intro a
    induction a with
    | nil => intro b; cases b <;> simp [listCmp]
    | cons x as ih =>
      intro b; cases b with
      | nil => simp [listCmp]
      | cons y bs => simp [listCmp, then_eq_iff, hf.eq_iff, ih]
  · intro a
    induction a with
    | nil => intro b; cases b <;> simp [listCmp, Ordering.swap]
    | cons x as ih =>
      intro b; cases b with
      | nil => simp [listCmp, Ordering.swap]
      | cons y bs => simp [listCmp, then_swap, hf.swapEq x y, ih]
  · intro a
    induction a with
    | nil => intro b c h1 h2; cases b <;> cases c <;>
        simp_all [listCmp, then_lt_iff]
    | cons x as ih =>
      intro b c h1 h2
      cases b with
      | nil => simp [listCmp] at h1
      | cons y bs =>
        cases c with
        | nil => simp [listCmp] at h2
        | cons z cs =>
          simp only [listCmp, then_lt_iff] at h1 h2 ⊢
          rcases h1 with h1 | ⟨h1e, h1l⟩
          · rcases h2 with h2 | ⟨h2e, h2l⟩
            · exact Or.inl (hf.lt_trans _ _ _ h1 h2)
            · rw [hf.eq_iff] at h2e; subst h2e; exact Or.inl h1
          · rw [hf.eq_iff] at h1e; subst h1e
            rcases h2 with h2 | ⟨h2e, h2l⟩
            · exact Or.inl h2
            · rw [hf.eq_iff] at h2e; subst h2e
              exact Or.inr ⟨hf.refl _, ih _ _ h1l h2l⟩

/-! ### Symbols and terms

From `Atom` in include/swift/AST/RewriteSystem.h and `Symbol` in
lib/AST/RequirementMachine (both generations share the payload structure;
the newer generation adds the three concrete kinds).  Protocols,
identifiers and interned concrete types are represented by `Nat` handles.
A layout constraint is modelled extensionally as the sorted list of layout
classes it admits, so that the intersection performed by
`LayoutConstraint::merge` (external to these sources) is list
intersection. -/

inductive Symbol where
  | assocType (ps : List Nat) (n : Nat)
  | genericParam (depth index : Nat)
  | name (n : Nat)
  | proto (p : Nat)
  | layout (classes : List Nat)
  | superclass (ty : Nat)
  | concreteType (ty : Nat)
  | concreteConformance (ty : Nat) (p : Nat)
deriving DecidableEq

/-- Rank of a symbol kind in the linear order.  The first five are the order
documented in `Atom::compare`; the remaining kinds are not comparable in the
C++ order (it asserts), and are ranked afterwards here so that the model's
order is total. -/
def Symbol.kindRank : Symbol → Nat
  | .assocType .. => 0
  | .genericParam .. => 1
  | .name _ => 2
  | .proto _ => 3
  | .layout _ => 4
  | .superclass _ => 5
  | .concreteType _ => 6
  | .concreteConformance .. => 7

/-- Payload comparison for two symbols of the same kind, following
`Atom::compare`: associated types order more-protocols first, then the
protocol lists pairwise, then the name; generic parameters by depth then
index; names, protocols and the interned concrete handles by handle. -/
def Symbol.payloadCmp : Symbol → Symbol → Ordering
  | .assocType ps n, .assocType ps' n' =>
      (natCmp ps'.length ps.length).then
        ((listCmp natCmp ps ps').then (natCmp n n'))
  | .genericParam d i, .genericParam d' i' => (natCmp d d').then (natCmp i i')
  | .name n, .name n' => natCmp n n'
  | .proto p, .proto p' => natCmp p p'
  | .layout l, .layout l' => listCmp natCmp l l'
  | .superclass t, .superclass t' => natCmp t t'
  | .concreteType t, .concreteType t' => natCmp t t'
  | .concreteConformance t p, .concreteConformance t' p' =>
      (natCmp t t').then (natCmp p p')
  | _, _ => .eq

/-- Linear order on symbols: bucket by kind, then compare payloads. -/
def scmp (a b : Symbol) : Ordering :=
  (natCmp a.kindRank b.kindRank).then (a.payloadCmp b)

theorem then_eq_right (x : Ordering) : x.then .eq = x := by
  cases x <;> rfl

theorem payload_eq_iff {a b : Symbol} (h : a.kindRank = b.kindRank) :
    a.payloadCmp b = .eq ↔ a = b := by
  cases a <;> cases b <;>
    simp_all [Symbol.kindRank, Symbol.payloadCmp, then_eq_iff, natCmp_eq_iff,
      (listCmpLaws natCmpLaws).eq_iff] <;>
    (try constructor) <;> (try rintro ⟨h1, h2⟩) <;> (try rintro ⟨h1, h2, h3⟩) <;>
    simp_all

theorem natCmp_swap' (a b : Nat) : (natCmp a b).swap = natCmp b a :=
  (natCmp_swap b a).symm

theorem listCmp_natCmp_swap' (a b : List Nat) :
    (listCmp natCmp a b).swap = listCmp natCmp b a :=
  ((listCmpLaws natCmpLaws).swapEq b a).symm

theorem payload_swap (a b : Symbol) :
    a.payloadCmp b = (b.payloadCmp a).swap := by
  cases a <;> cases b <;>
    simp only [Symbol.payloadCmp, then_swap, natCmp_swap', listCmp_natCmp_swap'] <;>
    rfl

theorem scmp_eq_iff {a b : Symbol} : scmp a b = .eq ↔ a = b := by
  unfold scmp
  rw [then_eq_iff, natCmp_eq_iff]
  constructor
  · rintro ⟨h1, h2⟩; exact (payload_eq_iff h1).mp h2
  · rintro rfl; exact ⟨rfl, (payload_eq_iff rfl).mpr rfl⟩

theorem scmp_swap (a b : Symbol) : scmp a b = (scmp b a).swap := by
  unfold scmp
  rw [then_swap, natCmp_swap, payload_swap]

theorem payload_lt_trans {a b c : Symbol}
    (hab : a.kindRank = b.kindRank) (hbc : b.kindRank = c.kindRank)
    (h1 : a.payloadCmp b = .lt) (h2 : b.payloadCmp c = .lt) :
    a.payloadCmp c = .lt := by
  have lcl := listCmpLaws natCmpLaws
  cases a <;> cases b <;> cases c <;>
    simp_all [Symbol.kindRank, Symbol.payloadCmp, then_lt_iff, natCmp_lt_iff,
      natCmp_eq_iff, lcl.eq_iff] <;>
    (try omega) <;>
    (try exact lcl.lt_trans _ _ _ h1 h2)
  rcases h1 with h1 | ⟨h1e, h1⟩ <;> rcases h2 with h2 | ⟨h2e, h2⟩
  · exact Or.inl (by omega)
  · exact Or.inl (by omega)
  · exact Or.inl (by omega)
  · refine Or.inr ⟨by omega, ?_⟩
    rcases h1 with h1 | ⟨hps1, hn1⟩ <;> rcases h2 with h2 | ⟨hps2, hn2⟩
    · exact Or.inl (lcl.lt_trans _ _ _ h1 h2)
    · rw [← hps2]; exact Or.inl h1
    · rw [hps1]; exact Or.inl h2
    · exact Or.inr ⟨hps1.trans hps2, by omega⟩

theorem scmpLaws : CmpLaws scmp where
  eq_iff := fun _ _ => scmp_eq_iff
  swapEq := scmp_swap
  lt_trans := fun a b c h1 h2 => by
    unfold scmp at h1 h2 ⊢
    rw [then_lt_iff] at h1 h2 ⊢
    rw [natCmp_lt_iff, natCmp_eq_iff] at h1 h2 ⊢
    rcases h1 with h1 | ⟨h1e, h1l⟩
    · rcases h2 with h2 | ⟨h2e, h2l⟩
      · exact Or.inl (Nat.lt_trans h1 h2)
      · omega
    · rcases h2 with h2 | ⟨h2e, h2l⟩
      · omega
      · exact Or.inr ⟨by omega, payload_lt_trans h1e h2e h1l h2l⟩

/-- A term is a non-empty sequence of symbols; we use plain lists and keep
non-emptiness as a side condition where it matters. -/
abbrev Term := List Symbol

/-- Linear order on terms, from `MutableTerm::compare`: compare length
first, then the symbols pairwise. -/
def termCmp (s t : Term) : Ordering :=
  (natCmp s.length t.length).then (listCmp scmp s t)

theorem termCmpLaws : CmpLaws termCmp := by
  have lcl := listCmpLaws scmpLaws
  constructor
  · intro a b
    unfold termCmp
    rw [then_eq_iff, natCmp_eq_iff, lcl.eq_iff]
    constructor
    · rintro ⟨_, h⟩; exact h
    · rintro rfl; exact ⟨rfl, rfl⟩
  · intro a b
    unfold termCmp
    rw [then_swap, natCmp_swap, lcl.swapEq]
  · intro a b c h1 h2
    unfold termCmp at h1 h2 ⊢
    rw [then_lt_iff, natCmp_lt_iff, natCmp_eq_iff] at h1 h2 ⊢
    rcases h1 with h1 | ⟨h1e, h1l⟩
    · rcases h2 with h2 | ⟨h2e, h2l⟩
      · exact Or.inl (Nat.lt_trans h1 h2)
      · omega
    · rcases h2 with h2 | ⟨h2e, h2l⟩
      · omega
      · exact Or.inr ⟨by omega, lcl.lt_trans _ _ _ h1l h2l⟩

/-! ### Finding and rewriting subterms

`findSubTermIdx` and `rewriteSubTermFirst` follow `MutableTerm::findSubTerm`
and `MutableTerm::rewriteSubTerm` (the `std::search` based versions used by
the first-generation rewrite system): the first occurrence of the left-hand
side is located and overwritten with the right-hand side. -/

/-- Index of the first occurrence of `pat` as a contiguous subsequence of
`t`, if any. -/
def findSubTermIdx (t pat : Term) : Option Nat :=
  if pat.isPrefixOf t then some 0
  else
    match t with
    | [] => none
    | _ :: rest => (findSubTermIdx rest pat).map (· + 1)

/-- Replace the occurrence of a rule's left-hand side starting at index `i`
of `t` with `rhs`. -/
def replaceAt (t : Term) (i : Nat) (lhsLen : Nat) (rhs : Term) : Term :=
  t.take i ++ rhs ++ t.drop (i + lhsLen)

/-- Rewrite the first occurrence of `lhs` in `t` to `rhs`; `none` when `t`
does not contain `lhs` (the C++ returns `false` and leaves the term
unchanged). -/
def rewriteSubTermFirst (t lhs rhs : Term) : Option Term :=
  (findSubTermIdx t lhs).map (fun i => replaceAt t i lhs.length rhs)

/-! ### The rule trie

Modelled from the spec and from the declaration
`Trie<unsigned, MatchKind::Shortest> Trie` in RequirementMachine/RewriteSystem.h:
the trie maps rule left-hand sides to rule indices, and `find` over a symbol
range returns the value stored at the shortest key that is a prefix of the
range (`MatchKind::Shortest` stops at the first node holding a value).
Trie.h itself is not among the sources, so the structure is modelled as an
association list with exactly that lookup semantics. -/

structure TrieEntry where
  key : Term
  value : Nat
deriving DecidableEq

abbrev RuleTrie := List TrieEntry

/-- Shortest-match lookup: among entries whose key is a prefix of `suffix`,
return the one with the shortest key. -/
def trieFindGo (suffix : Term) : RuleTrie → Option TrieEntry → Option TrieEntry
  | [], acc => acc
  | e :: rest, acc =>
    trieFindGo suffix rest
      (if e.key.isPrefixOf suffix then
        match acc with
        | none => some e
        | some best => if e.key.length < best.key.length then some e else acc
      else acc)

def trieFindEntry (tr : RuleTrie) (suffix : Term) : Option TrieEntry :=
  trieFindGo suffix tr none

def trieFind (tr : RuleTrie) (suffix : Term) : Option Nat :=
  (trieFindEntry tr suffix).map (·.value)

/-- Insert a binding, returning the previous value bound to the key,
if any. -/
def trieInsert : RuleTrie → Term → Nat → Option Nat × RuleTrie
  | [], key, v => (none, [⟨key, v⟩])
  | e :: rest, key, v =>
    if e.key = key then (some e.value, ⟨key, v⟩ :: rest)
    else
      let r := trieInsert rest key v
      (r.1, e :: r.2)

/-! ### Rewrite steps and paths

From `RewriteStep` in RequirementMachine/RewriteLoop.h (the header is not
among the sources; the step kinds and fields are those used by
HomotopyReduction.cpp and PropertyUnification.cpp, with `arg` holding the
rule index, relation index, or substitution count depending on the kind).
A step applies in a context described by `startOffset` (symbols before the
replaced range) and `endOffset` (symbols after it). -/

inductive StepKind where
  | rule
  | prefixSubstitutions
  | shift
  | decompose
  | relation
  | decomposeConcrete
deriving DecidableEq

structure RewriteStep where
  kind : StepKind
  startOffset : Nat
  endOffset : Nat
  arg : Nat
  inverse : Bool
deriving DecidableEq

def RewriteStep.forRewriteRule (s e rid : Nat) (inv : Bool) : RewriteStep :=
  ⟨.rule, s, e, rid, inv⟩

def RewriteStep.forRelation (s rid : Nat) (inv : Bool) : RewriteStep :=
  ⟨.relation, s, 0, rid, inv⟩

/-- Whether the step applies in a non-trivial context (modelled from
RewriteLoop.h: nonzero start or end offset). -/
def RewriteStep.isInContext (s : RewriteStep) : Bool :=
  s.startOffset ≠ 0 || s.endOffset ≠ 0

abbrev RewritePath := List RewriteStep

/-- Inversion of a rewrite path: reverse the steps and flip each step's
inverse bit (modelled from `RewritePath::invert`). -/
def pathInvert (p : RewritePath) : RewritePath :=
  (p.map (fun s => { s with inverse := !s.inverse })).reverse

/-! ### Rules and the rewrite system state

From `Rule` and `RewriteSystem` in RequirementMachine/RewriteSystem.h.
Interning of terms is the identity in this model. -/

structure Rule where
  lhs : Term
  rhs : Term
  permanentFlag : Bool := false
  explicitFlag : Bool := false
  lhsSimplifiedFlag : Bool := false
  rhsSimplifiedFlag : Bool := false
  substitutionSimplifiedFlag : Bool := false
  redundantFlag : Bool := false
  conflictingFlag : Bool := false
deriving DecidableEq

/-- Whether a term mentions an unresolved name symbol, from
`Term::containsUnresolvedSymbols`. -/
def termContainsUnresolved (t : Term) : Bool :=
  t.any (fun s => match s with | .name _ => true | _ => false)

def Rule.containsUnresolvedSymbols (r : Rule) : Bool :=
  termContainsUnresolved r.lhs || termContainsUnresolved r.rhs

/-- Length of the left-hand side; `Rule::getDepth` additionally maximises
over substitution lengths, but substitution payloads are interned handles
in this model, so the depth is the left-hand side's length. -/
def Rule.depth (r : Rule) : Nat := r.lhs.length

/-- From `Rule::compare`: compare the left-hand sides, then the right-hand
sides. -/
def Rule.cmp (r r' : Rule) : Ordering :=
  (termCmp r.lhs r'.lhs).then (termCmp r.rhs r'.rhs)

structure RewriteLoop where
  basepoint : Term
  path : RewritePath
  deleted : Bool := false
deriving DecidableEq

structure RwState where
  rules : List Rule
  trie : RuleTrie
  loops : List RewriteLoop
  relations : List (Term × Term)
  mergedAssociatedTypes : List (Term × Term)
  recordLoopsFlag : Bool
  protos : List Nat
deriving DecidableEq

/-- Protocols of a term's root symbol, from `Term::getRootProtocols`. -/
def rootProtocols (t : Term) : List Nat :=
  match t with
  | .proto p :: _ => [p]
  | .assocType ps _ :: _ => ps
  | _ => []

/-- From `RewriteSystem::isInMinimizationDomain`. -/
def isInMinimizationDomain (machineProtos rootPs : List Nat) : Bool :=
  match rootPs with
  | [] => machineProtos.isEmpty
  | p :: _ => machineProtos.contains p

/-- From `RewriteSystem::recordRewriteLoop`: ignored unless loop recording
is enabled and the basepoint lies in the minimization domain. -/
def recordRewriteLoop (st : RwState) (basepoint : Term) (path : RewritePath) :
    RwState :=
  if !st.recordLoopsFlag then st
  else if !isInMinimizationDomain st.protos (rootProtocols basepoint) then st
  else { st with loops := st.loops ++ [⟨basepoint, path, false⟩] }

/-! ### Simplification (second generation)

From `RewriteSystem::simplify`: scan the term left to right; at each
position consult the trie for a rule whose left-hand side begins there;
rewrite the first match found and restart, until no rule applies. -/

/-- Leftmost position at which the trie finds a matching rule, with the rule
index found there. -/
def trieScan (tr : RuleTrie) : Term → Option (Nat × Nat)
  | [] => none
  | t@(_ :: rest) =>
    match trieFind tr t with
    | some rid => some (0, rid)
    | none => (trieScan tr rest).map (fun p => (p.1 + 1, p.2))

/-- One iteration of the `simplify` loop: rewrite the first match, recording
the rewrite step taken. -/
def simplifyStep (st : RwState) (t : Term) : Option (Term × RewriteStep) :=
  match trieScan st.trie t with
  | none => none
  | some (i, rid) =>
    match st.rules[rid]? with
    | none => none
    | some r =>
      some (replaceAt t i r.lhs.length r.rhs,
        RewriteStep.forRewriteRule i (t.length - r.lhs.length - i) rid false)

def simplifyGo (st : RwState) : Nat → Term → RewritePath → Term × RewritePath
  | 0, t, steps => (t, steps)
  | fuel + 1, t, steps =>
    match simplifyStep st t with
    | none => (t, steps)
    | some (t', s) => simplifyGo st fuel t' (steps ++ [s])

/-! ### Termination of simplification

The C++ `simplify` loops until no rule applies; it terminates because every
rewrite strictly decreases the term in the well-founded term order.  To keep
the embedded `simplify` executable we run the loop on an explicit fuel that
is provably sufficient: terms drawn from the finite alphabet of symbols
appearing in the input and in the rules are mapped monotonically (with
respect to the term order) into `Nat`, and the input's encoding bounds the
length of any strictly decreasing chain starting from it. -/

def symsIn (l : Term) (alpha : List Symbol) : Prop := ∀ x ∈ l, x ∈ alpha

/-- Rules whose symbols are all drawn from `alpha`. -/
def rulesSymsIn (st : RwState) (alpha : List Symbol) : Prop :=
  ∀ r ∈ st.rules, symsIn r.lhs alpha ∧ symsIn r.rhs alpha

/-- The rule sides are oriented (and their right-hand sides are non-empty
terms, as the C++ asserts). -/
def Oriented (st : RwState) : Prop :=
  ∀ r ∈ st.rules, r.rhs ≠ [] ∧ termCmp r.lhs r.rhs = .gt

/-- Every trie binding points at an existing rule whose left-hand side is
the binding's key. -/
def WFTrie (st : RwState) : Prop :=
  ∀ e ∈ st.trie, ∃ r, st.rules[e.value]? = some r ∧ r.lhs = e.key

def allRuleSymbols (st : RwState) : List Symbol :=
  st.rules.foldr (fun r acc => r.lhs ++ r.rhs ++ acc) []

def simplifyAlphabet (st : RwState) (t : Term) : List Symbol :=
  t ++ allRuleSymbols st

/-- Rank of a symbol: one plus the number of alphabet entries strictly below
it in the symbol order. -/
def symRank (alpha : List Symbol) (s : Symbol) : Nat :=
  alpha.countP (fun x => decide (scmp x s = .lt)) + 1

def encBase (alpha : List Symbol) : Nat := alpha.length + 1

/-- Order-preserving encoding of terms over `alpha` into `Nat`: the term is
read as a number in base `alpha.length + 1` with a leading 1 digit. -/
def enc (alpha : List Symbol) (t : Term) : Nat :=
  t.foldl (fun acc s => acc * encBase alpha + symRank alpha s) 1

theorem countP_lt_length {α : Type} {l : List α} {p : α → Bool} {a : α}
    (ha : a ∈ l) (hpa : p a = false) : l.countP p < l.length := by
  induction l with
  | nil => cases ha
  | cons x xs ih =>
    rcases List.mem_cons.mp ha with rfl | hmem
    · rw [List.countP_cons, hpa]
      simp only [List.length_cons, if_neg Bool.false_ne_true]
      have := List.countP_le_length (l := xs) (p := p)
      omega
    · rw [List.countP_cons]
      have := ih hmem
      have hite : (if p x = true then 1 else 0) ≤ 1 := by split <;> omega
      simp only [List.length_cons]
      omega

theorem countP_lt_countP {α : Type} {l : List α} {p q : α → Bool}
    (hpq : ∀ x ∈ l, p x = true → q x = true) {a : α} (ha : a ∈ l)
    (hqa : q a = true) (hpa : p a = false) :
    l.countP p < l.countP q := by
  induction l with
  | nil => cases ha
  | cons x xs ih =>
    rw [List.countP_cons, List.countP_cons]
    rcases List.mem_cons.mp ha with rfl | hmem
    · rw [hpa, hqa]
      have hle : xs.countP p ≤ xs.countP q := by
        apply List.countP_mono_left
        intro x hx
        exact hpq x (List.mem_cons_of_mem _ hx)
      have e1 : (if (false : Bool) = true then 1 else 0) = 0 := rfl
      have e2 : (if (true : Bool) = true then 1 else 0) = 1 := rfl
      rw [e1, e2]
      omega
    · have hrec := ih (fun x hx => hpq x (List.mem_cons_of_mem _ hx)) hmem
      have hx : p x = true → q x = true := hpq x (List.mem_cons_self _ _)
      cases hpx : p x
      · have e1 : (if (false : Bool) = true then 1 else 0) = 0 := rfl
        rw [e1]
        have h2 : (0 : Nat) ≤ if q x = true then 1 else 0 := Nat.zero_le _
        omega
      · rw [hx hpx]
        have e2 : (if (true : Bool) = true then 1 else 0) = 1 := rfl
        rw [e2]
        omega

theorem symRank_le {alpha : List Symbol} {s : Symbol} (hs : s ∈ alpha) :
    symRank alpha s ≤ alpha.length := by
  unfold symRank
  have : alpha.countP (fun x => decide (scmp x s = .lt)) < alpha.length := by
    apply countP_lt_length hs
    simp [scmpLaws.refl s]
  omega

theorem symRank_lt_of_lt {alpha : List Symbol} {s s' : Symbol}
    (h : scmp s s' = .lt) (hs : s ∈ alpha) :
    symRank alpha s < symRank alpha s' := by
  unfold symRank
  have : alpha.countP (fun x => decide (scmp x s = .lt)) <
      alpha.countP (fun x => decide (scmp x s' = .lt)) := by
    apply countP_lt_countP (a := s) _ hs
    · simp [h]
    · simp [scmpLaws.refl s]
    · intro x _ hx
      simp only [decide_eq_true_eq] at hx ⊢
      exact scmpLaws.lt_trans _ _ _ hx h
  omega

theorem encFold_shift (alpha : List Symbol) (l : List Symbol) (a : Nat) :
    l.foldl (fun acc s => acc * encBase alpha + symRank alpha s) a =
      a * encBase alpha ^ l.length +
        l.foldl (fun acc s => acc * encBase alpha + symRank alpha s) 0 := by
  induction l generalizing a with
  | nil => simp
  | cons s l ih =>
    simp only [List.foldl_cons, List.length_cons]
    rw [ih (a * encBase alpha + symRank alpha s), ih (0 * encBase alpha + symRank alpha s)]
    ring

theorem encFold_bound (alpha : List Symbol) (l : List Symbol)
    (hl : symsIn l alpha) :
    l.foldl (fun acc s => acc * encBase alpha + symRank alpha s) 0 <
      encBase alpha ^ l.length := by
  induction l with
  | nil => simp
  | cons s l ih =>
    simp only [List.foldl_cons, List.length_cons]
    rw [encFold_shift]
    have h1 : symRank alpha s ≤ alpha.length :=
      symRank_le (hl s (List.mem_cons_self _ _))
    have h2 := ih (fun x hx => hl x (List.mem_cons_of_mem _ hx))
    have hbase : encBase alpha = alpha.length + 1 := rfl
    calc (0 * encBase alpha + symRank alpha s) * encBase alpha ^ l.length +
          l.foldl (fun acc s => acc * encBase alpha + symRank alpha s) 0
        < (symRank alpha s + 1) * encBase alpha ^ l.length := by
          simp only [Nat.zero_mul, Nat.zero_add]; nlinarith
      _ ≤ encBase alpha * encBase alpha ^ l.length := by
          apply Nat.mul_le_mul_right
          omega
      _ = encBase alpha ^ (l.length + 1) := by ring

theorem enc_lower (alpha : List Symbol) (t : Term) :
    encBase alpha ^ t.length ≤ enc alpha t := by
  unfold enc
  rw [encFold_shift]
  omega

theorem enc_upper (alpha : List Symbol) (t : Term) (ht : symsIn t alpha) :
    enc alpha t < 2 * encBase alpha ^ t.length := by
  unfold enc
  rw [encFold_shift]
  have := encFold_bound alpha t ht
  omega

theorem listCmp_lt_decomp {α : Type} {f : α → α → Ordering} (hf : CmpLaws f) :
    ∀ {u v : List α}, u.length = v.length → listCmp f u v = .lt →
      ∃ (P U V : List α) (x y : α), u = P ++ x :: U ∧ v = P ++ y :: V ∧
        U.length = V.length ∧ f x y = .lt := by
  intro u
  induction u with
  | nil => intro v hlen h; cases v <;> simp_all [listCmp]
  | cons a as ih =>
    intro v hlen h
    cases v with
    | nil => simp at hlen
    | cons b bs =>
      simp only [listCmp, then_lt_iff] at h
      rcases h with h | ⟨he, hl⟩
      · exact ⟨[], as, bs, a, b, rfl, rfl, by simpa using hlen, h⟩
      · rw [hf.eq_iff] at he; subst he
        obtain ⟨P, U, V, x, y, hu, hv, hUV, hxy⟩ := ih (by simpa using hlen) hl
        exact ⟨a :: P, U, V, x, y, by simp [hu], by simp [hv], hUV, hxy⟩

theorem enc_lt_of_termLt {alpha : List Symbol} {u v : Term}
    (h : termCmp u v = .lt) (hu : symsIn u alpha) (hv : symsIn v alpha)
    (hne : alpha ≠ []) : enc alpha u < enc alpha v := by
  have hb2 : 2 ≤ encBase alpha := by
    unfold encBase
    cases alpha with
    | nil => exact absurd rfl hne
    | cons _ _ => simp
  unfold termCmp at h
  rw [then_lt_iff, natCmp_lt_iff, natCmp_eq_iff] at h
  rcases h with h | ⟨hlen, hlex⟩
  · calc enc alpha u < 2 * encBase alpha ^ u.length := enc_upper alpha u hu
      _ ≤ encBase alpha * encBase alpha ^ u.length := by
          apply Nat.mul_le_mul_right; omega
      _ = encBase alpha ^ (u.length + 1) := by ring
      _ ≤ encBase alpha ^ v.length := by
          apply Nat.pow_le_pow_right <;> omega
      _ ≤ enc alpha v := enc_lower alpha v
  · obtain ⟨P, U, V, x, y, hu', hv', hUV, hxy⟩ :=
      listCmp_lt_decomp scmpLaws hlen hlex
    subst hu'; subst hv'
    have hxmem : x ∈ alpha := hu x (by simp)
    have hrank : symRank alpha x < symRank alpha y := symRank_lt_of_lt hxy hxmem
    unfold enc
    rw [List.foldl_append, List.foldl_append, List.foldl_cons, List.foldl_cons]
    set A := P.foldl (fun acc s => acc * encBase alpha + symRank alpha s) 1 with hA
    rw [encFold_shift alpha U, encFold_shift alpha V]
    have hUbound : U.foldl (fun acc s => acc * encBase alpha + symRank alpha s) 0 <
        encBase alpha ^ U.length := by
      apply encFold_bound
      intro z hz; exact hu z (by simp [hz])
    rw [hUV] at hUbound ⊢
    have step1 : (A * encBase alpha + symRank alpha x) * encBase alpha ^ V.length +
        U.foldl (fun acc s => acc * encBase alpha + symRank alpha s) 0 <
        (A * encBase alpha + symRank alpha x + 1) * encBase alpha ^ V.length := by
      nlinarith [hUbound]
    have step2 : (A * encBase alpha + symRank alpha x + 1) * encBase alpha ^ V.length ≤
        (A * encBase alpha + symRank alpha y) * encBase alpha ^ V.length :=
      Nat.mul_le_mul_right _ (by omega)
    have step3 : (A * encBase alpha + symRank alpha y) * encBase alpha ^ V.length ≤
        (A * encBase alpha + symRank alpha y) * encBase alpha ^ V.length +
          V.foldl (fun acc s => acc * encBase alpha + symRank alpha s) 0 :=
      Nat.le_add_right _ _
    omega

theorem then_assoc (x y z : Ordering) :
    (x.then y).then z = x.then (y.then z) := by
  cases x <;> cases y <;> rfl

theorem listCmp_append_left {α : Type} {f : α → α → Ordering} (hf : CmpLaws f)
    (X u v : List α) : listCmp f (X ++ u) (X ++ v) = listCmp f u v := by
  induction X with
  | nil => rfl
  | cons a X ih =>
    simp only [List.cons_append, listCmp, hf.refl a]
    exact ih

theorem listCmp_append_eqlen {α : Type} {f : α → α → Ordering} :
    ∀ {u v : List α}, u.length = v.length → ∀ (Y Y' : List α),
      listCmp f (u ++ Y) (v ++ Y') = (listCmp f u v).then (listCmp f Y Y') := by
  intro u
  induction u with
  | nil => intro v hlen Y Y'; cases v <;> simp_all [listCmp]; rfl
  | cons a as ih =>
    intro v hlen Y Y'
    cases v with
    | nil => simp at hlen
    | cons b bs =>
      simp only [List.cons_append, listCmp]
      rw [then_assoc]
      exact congrArg (Ordering.then (f a b)) (ih (by simpa using hlen) Y Y')

/-- A rewrite that replaces one occurrence of a rule's left-hand side with
its smaller right-hand side strictly decreases the term order. -/
theorem termCmp_context {l r X Y : Term} (h : termCmp r l = .lt) :
    termCmp (X ++ r ++ Y) (X ++ l ++ Y) = .lt := by
  unfold termCmp at h ⊢
  rw [then_lt_iff, natCmp_lt_iff, natCmp_eq_iff] at h ⊢
  rcases h with h | ⟨hlen, hlex⟩
  · left; simp [List.length_append]; omega
  · right
    constructor
    · simp [List.length_append, hlen]
    · rw [List.append_assoc, List.append_assoc,
        listCmp_append_left scmpLaws X (r ++ Y) (l ++ Y),
        listCmp_append_eqlen hlen Y Y, hlex,
        (listCmpLaws scmpLaws).refl Y]
      rfl

theorem trieFindGo_some {suffix : Term} :
    ∀ {tr : RuleTrie} {acc : Option TrieEntry} {e : TrieEntry},
      trieFindGo suffix tr acc = some e →
      (e ∈ tr ∧ e.key.isPrefixOf suffix = true) ∨ acc = some e := by
  intro tr
  induction tr with
  | nil => intro acc e h; exact Or.inr h
  | cons x xs ih =>
    intro acc e h
    simp only [trieFindGo] at h
    rcases ih h with h' | h'
    · exact Or.inl ⟨List.mem_cons_of_mem _ h'.1, h'.2⟩
    · by_cases hpre : x.key.isPrefixOf suffix
      · rw [if_pos hpre] at h'
        cases acc with
        | none =>
          have hxe : some x = some e := h'
          cases hxe
          exact Or.inl ⟨List.mem_cons_self _ _, hpre⟩
        | some best =>
          by_cases hlt : x.key.length < best.key.length
          · have hxe : some x = some e := by
              rw [← h']
              exact (if_pos hlt).symm
            cases hxe
            exact Or.inl ⟨List.mem_cons_self _ _, hpre⟩
          · have hbe : some best = some e := by
              rw [← h']
              exact (if_neg hlt).symm
            exact Or.inr hbe
      · rw [if_neg hpre] at h'
        exact Or.inr h'

theorem trieFindEntry_some {tr : RuleTrie} {suffix : Term} {e : TrieEntry}
    (h : trieFindEntry tr suffix = some e) :
    e ∈ tr ∧ e.key.isPrefixOf suffix = true := by
  rcases trieFindGo_some h with h' | h'
  · exact h'
  · cases h'

theorem trieScan_some {tr : RuleTrie} :
    ∀ {t : Term} {i rid : Nat}, trieScan tr t = some (i, rid) →
      ∃ e, e ∈ tr ∧ e.value = rid ∧ e.key.isPrefixOf (t.drop i) = true ∧
        i < t.length := by
  intro t
  induction t with
  | nil => intro i rid h; simp [trieScan] at h
  | cons a rest ih =>
    intro i rid h
    simp only [trieScan] at h
    cases hf : trieFind tr (a :: rest) with
    | some rid' =>
      rw [hf] at h
      cases h
      unfold trieFind at hf
      cases hfe : trieFindEntry tr (a :: rest) with
      | none => rw [hfe] at hf; cases hf
      | some e =>
        rw [hfe] at hf
        cases hf
        obtain ⟨hmem, hpre⟩ := trieFindEntry_some hfe
        exact ⟨e, hmem, rfl, by simpa using hpre, by simp⟩
    | none =>
      rw [hf] at h
      cases hs : trieScan tr rest with
      | none => rw [hs] at h; cases h
      | some p =>
        rw [hs] at h
        obtain ⟨j, rid'⟩ := p
        cases h
        obtain ⟨e, hmem, hval, hpre, hlt⟩ := ih hs
        exact ⟨e, hmem, hval, by simpa using hpre, by simpa using Nat.succ_lt_succ hlt⟩

/-- Decomposition of a successful simplification step: the term splits as
`X ++ lhs ++ Y` and is rewritten to `X ++ rhs ++ Y` for some rule of the
system. -/
theorem simplifyStep_some {st : RwState} {t t' : Term} {s : RewriteStep}
    (hwf : WFTrie st) (h : simplifyStep st t = some (t', s)) :
    ∃ (i rid : Nat) (r : Rule) (X Y : Term),
      st.rules[rid]? = some r ∧ t = X ++ r.lhs ++ Y ∧ X = t.take i ∧
      t' = X ++ r.rhs ++ Y ∧
      s = RewriteStep.forRewriteRule i (t.length - r.lhs.length - i) rid false := by
  unfold simplifyStep at h
  cases hscan : trieScan st.trie t with
  | none => rw [hscan] at h; cases h
  | some p =>
    rw [hscan] at h
    obtain ⟨i, rid⟩ := p
    obtain ⟨e, hmem, hval, hpre, hlen⟩ := trieScan_some hscan
    obtain ⟨r, hr, hkey⟩ := hwf e hmem
    subst hval
    simp only [hr, Option.some.injEq, Prod.mk.injEq] at h
    obtain ⟨h1, h2⟩ := h
    subst h1
    subst h2
    rw [List.isPrefixOf_iff_prefix] at hpre
    obtain ⟨Y, hY⟩ := hpre
    refine ⟨i, e.value, r, t.take i, Y, hr, ?_, rfl, ?_, rfl⟩
    · rw [List.append_assoc, hkey, hY, List.take_append_drop]
    · have hdrop : t.drop (i + r.lhs.length) = Y := by
        have h1 : (t.drop i).drop r.lhs.length = Y := by
          rw [← hY, hkey, List.drop_left]
        rw [List.drop_drop] at h1
        first
          | exact h1
          | (rw [Nat.add_comm]; exact h1)
      unfold replaceAt
      rw [hdrop, List.append_assoc]

/-- Each successful simplification step strictly decreases the term in the
term order, and only introduces symbols drawn from rule right-hand sides. -/
theorem simplifyStep_decreases {st : RwState} {t t' : Term} {s : RewriteStep}
    (hor : Oriented st) (hwf : WFTrie st)
    (h : simplifyStep st t = some (t', s)) :
    termCmp t' t = .lt ∧ (∀ x ∈ t', x ∈ t ∨ ∃ r ∈ st.rules, x ∈ r.rhs) ∧
      (∃ r ∈ st.rules, r.rhs ≠ []) := by
  obtain ⟨i, rid, r, X, Y, hr, ht, _, ht', _⟩ := simplifyStep_some hwf h
  have hmem : r ∈ st.rules := by
    have := List.getElem?_eq_some.mp hr
    obtain ⟨hlen, hget⟩ := this
    rw [← hget]
    exact List.getElem_mem _
  have hrl : termCmp r.rhs r.lhs = .lt :=
    (termCmpLaws.gt_iff_lt r.lhs r.rhs).mp (hor r hmem).2
  refine ⟨?_, ?_, ⟨r, hmem, (hor r hmem).1⟩⟩
  · rw [ht, ht']
    exact termCmp_context hrl
  · intro x hx
    rw [ht'] at hx
    rcases List.mem_append.mp hx with hx' | hx'
    · rcases List.mem_append.mp hx' with hx'' | hx''
      · exact Or.inl (by rw [ht]; simp [hx''])
      · exact Or.inr ⟨r, hmem, hx''⟩
    · exact Or.inl (by rw [ht]; simp [hx'])

theorem mem_foldr_ruleSymbols {rs : List Rule} {r : Rule} (hr : r ∈ rs) :
    (∀ x ∈ r.lhs, x ∈ rs.foldr (fun r acc => r.lhs ++ r.rhs ++ acc) []) ∧
      (∀ x ∈ r.rhs, x ∈ rs.foldr (fun r acc => r.lhs ++ r.rhs ++ acc) []) := by
  induction rs with
  | nil => cases hr
  | cons q qs ih =>
    rcases List.mem_cons.mp hr with rfl | hmem
    · constructor <;> intro x hx <;> simp [hx]
    · obtain ⟨h1, h2⟩ := ih hmem
      constructor <;> intro x hx <;> simp_all

theorem mem_allRuleSymbols {st : RwState} {r : Rule} (hr : r ∈ st.rules) :
    (∀ x ∈ r.lhs, x ∈ allRuleSymbols st) ∧
      (∀ x ∈ r.rhs, x ∈ allRuleSymbols st) :=
  mem_foldr_ruleSymbols hr

theorem simplifyGo_fixpoint {st : RwState} {alpha : List Symbol}
    (hor : Oriented st) (hwf : WFTrie st) (hrules : rulesSymsIn st alpha) :
    ∀ (fuel : Nat) (t : Term) (steps : RewritePath), symsIn t alpha →
      enc alpha t ≤ fuel →
      simplifyStep st (simplifyGo st fuel t steps).1 = none := by
  intro fuel
  induction fuel with
  | zero =>
    intro t steps _ henc
    exfalso
    have h1 := enc_lower alpha t
    have h2 : 0 < encBase alpha ^ t.length :=
      pow_pos (by unfold encBase; omega) _
    omega
  | succ fuel ih =>
    intro t steps hsyms henc
    simp only [simplifyGo]
    cases hstep : simplifyStep st t with
    | none => exact hstep
    | some pr =>
      obtain ⟨t', s⟩ := pr
      obtain ⟨hdec, hclosed, rne, hrne, hrhsne⟩ :=
        simplifyStep_decreases hor hwf hstep
      have hsyms' : symsIn t' alpha := by
        intro x hx
        rcases hclosed x hx with hx' | ⟨r, hrm, hxr⟩
        · exact hsyms x hx'
        · exact (hrules r hrm).2 x hxr
      have halphaNe : alpha ≠ [] := by
        intro hnil
        cases hrhs : rne.rhs with
        | nil => exact hrhsne hrhs
        | cons y ys =>
          have : y ∈ alpha := (hrules rne hrne).2 y (by simp [hrhs])
          rw [hnil] at this
          cases this
      have henc' : enc alpha t' < enc alpha t :=
        enc_lt_of_termLt hdec hsyms' hsyms halphaNe
      exact ih t' (steps ++ [s]) hsyms' (by omega)

/-- The simplification loop of `RewriteSystem::simplify`, run on a
provably sufficient fuel.  The returned path holds one recorded rewrite
step per rule application; `simplify` changed the term iff the path is
non-empty. -/
def simplify (st : RwState) (t : Term) : Term × RewritePath :=
  simplifyGo st (enc (simplifyAlphabet st t) t) t []

theorem symsIn_alphabet (st : RwState) (t : Term) :
    symsIn t (simplifyAlphabet st t) := by
  intro x hx
  unfold simplifyAlphabet
  simp [hx]

theorem rulesSymsIn_alphabet (st : RwState) (t : Term) :
    rulesSymsIn st (simplifyAlphabet st t) := by
  intro r hr
  obtain ⟨h1, h2⟩ := mem_allRuleSymbols hr
  constructor
  · intro x hx
    unfold simplifyAlphabet
    simp [h1 x hx]
  · intro x hx
    unfold simplifyAlphabet
    simp [h2 x hx]

/-- `simplify` reaches a normal form: no rule applies to its result. -/
theorem simplify_normal_form {st : RwState} (hor : Oriented st)
    (hwf : WFTrie st) (t : Term) :
    simplifyStep st (simplify st t).1 = none :=
  simplifyGo_fixpoint hor hwf (rulesSymsIn_alphabet st t) _ t []
    (symsIn_alphabet st t) (Nat.le_refl _)

/-- The simplified term is the original term or strictly below it in the
term order. -/
theorem simplifyGo_le {st : RwState} (hor : Oriented st) (hwf : WFTrie st) :
    ∀ (fuel : Nat) (t : Term) (steps : RewritePath),
      (simplifyGo st fuel t steps).1 = t ∨
        termCmp (simplifyGo st fuel t steps).1 t = .lt := by
  intro fuel
  induction fuel with
  | zero => intro t steps; exact Or.inl rfl
  | succ fuel ih =>
    intro t steps
    simp only [simplifyGo]
    cases hstep : simplifyStep st t with
    | none => exact Or.inl rfl
    | some pr =>
      obtain ⟨t', s⟩ := pr
      have hdec := (simplifyStep_decreases hor hwf hstep).1
      rcases ih t' (steps ++ [s]) with h | h
      · rw [h]; exact Or.inr hdec
      · exact Or.inr (termCmpLaws.lt_trans _ _ _ h hdec)

theorem simplify_le {st : RwState} (hor : Oriented st) (hwf : WFTrie st)
    (t : Term) :
    (simplify st t).1 = t ∨ termCmp (simplify st t).1 t = .lt :=
  simplifyGo_le hor hwf _ t []

/-! ### Adding rules (second generation)

From `RewriteSystem::addRule` in RequirementMachine/RewriteSystem.cpp. -/

/-- Condition under which a new rule is recorded as an associated type merge
candidate: both sides have equal length, agree on everything but the last
symbol, and end in associated type symbols of the same name.  (The condition
is stated inline in the first-generation `addRule`; the second generation
checks it in `checkMergedAssociatedType`, which is not among the sources.) -/
def mergeCandidate (lhs rhs : Term) : Bool :=
  decide (lhs.length = rhs.length) && decide (lhs.dropLast = rhs.dropLast) &&
    (match lhs.getLast?, rhs.getLast? with
     | some (.assocType _ n), some (.assocType _ n') => decide (n = n')
     | _, _ => false)

def checkMergedAssociatedType (st : RwState) (lhs rhs : Term) : RwState :=
  if mergeCandidate lhs rhs then
    { st with mergedAssociatedTypes := st.mergedAssociatedTypes ++ [(lhs, rhs)] }
  else st

/-- `RewriteSystem::addRule`: simplify both sides; if they became equal, add
no rule, recording a trivial loop when a justification path was supplied;
otherwise orient by the term order, append the rule, record the loop closing
it, index the left-hand side in the trie, and check for a merge candidate.
The `abort()` on a duplicate trie binding is modelled by returning
`none`. -/
def addRule (st : RwState) (lhs0 rhs0 : Term) (path : Option RewritePath) :
    Option (Bool × RwState) :=
  let lp := simplify st lhs0
  let rp := simplify st rhs0
  let loop : RewritePath :=
    match path with
    | some p => pathInvert lp.2 ++ p ++ rp.2
    | none => []
  match termCmp lp.1 rp.1 with
  | .eq =>
    some (false,
      match path with
      | some _ => recordRewriteLoop st lp.1 loop
      | none => st)
  | c =>
    let oriented :=
      if c = .lt then (rp.1, lp.1, pathInvert loop) else (lp.1, rp.1, loop)
    let newRuleID := st.rules.length
    let st1 :=
      { st with rules := st.rules ++ [{ lhs := oriented.1, rhs := oriented.2.1 }] }
    let st2 :=
      match path with
      | some _ =>
        recordRewriteLoop st1 oriented.1
          (oriented.2.2 ++ [RewriteStep.forRewriteRule 0 0 newRuleID true])
      | none => st1
    let ins := trieInsert st2.trie oriented.1 newRuleID
    match ins.1 with
    | some _ => none
    | none =>
      some (true,
        checkMergedAssociatedType { st2 with trie := ins.2 } oriented.1 oriented.2.1)

def mapLast (f : Rule → Rule) : List Rule → List Rule
  | [] => []
  | [r] => [f r]
  | r :: rest => r :: mapLast f rest

/-- `RewriteSystem::addPermanentRule`: add a rule and mark it permanent. -/
def addPermanentRule (st : RwState) (lhs rhs : Term) : Option (Bool × RwState) :=
  match addRule st lhs rhs none with
  | none => none
  | some (added, st') =>
    some (added,
      if added then
        { st' with rules := mapLast (fun r => { r with permanentFlag := true }) st'.rules }
      else st')

/-- `RewriteSystem::addExplicitRule`: add a rule and mark it explicit. -/
def addExplicitRule (st : RwState) (lhs rhs : Term) : Option (Bool × RwState) :=
  match addRule st lhs rhs none with
  | none => none
  | some (added, st') =>
    some (added,
      if added then
        { st' with rules := mapLast (fun r => { r with explicitFlag := true }) st'.rules }
      else st')

/-! ### Rule predicates and right-hand side simplification -/

/-- Kinds that may appear as the property symbol of a property rule
(modelled from `Symbol::isProperty`; Symbol.h is not among the sources). -/
def Symbol.isProperty : Symbol → Bool
  | .proto _ => true
  | .layout _ => true
  | .superclass _ => true
  | .concreteType _ => true
  | .concreteConformance .. => true
  | _ => false

/-- From `Rule::isPropertyRule`: a rule of the form `T.[p] => T` yields the
property symbol `[p]`. -/
def Rule.isPropertyRule (r : Rule) : Option Symbol :=
  match r.lhs.getLast? with
  | none => none
  | some property =>
    if property.isProperty && decide (r.lhs.dropLast = r.rhs) then some property
    else none

/-- From `Rule::isProtocolConformanceRule`. -/
def Rule.isProtocolConformanceRule (r : Rule) : Bool :=
  match r.isPropertyRule with
  | some (.proto _) => true
  | _ => false

/-- From `Rule::isAnyConformanceRule`. -/
def Rule.isAnyConformanceRule (r : Rule) : Bool :=
  match r.isPropertyRule with
  | some (.proto _) => true
  | some (.concreteConformance ..) => true
  | _ => false

def setRuleAt (st : RwState) (i : Nat) (f : Rule → Rule) : RwState :=
  match st.rules[i]? with
  | none => st
  | some r => { st with rules := st.rules.set i (f r) }

/-- One iteration of `RewriteSystem::simplifyRightHandSides` for a given
rule index: if the right-hand side can be reduced, mark the rule
RHS-simplified and add a new rule with the reduced right-hand side,
recording a loop relating the two. -/
def simplifyRhsOne (st : RwState) (ruleID : Nat) : RwState :=
  match st.rules[ruleID]? with
  | none => st
  | some rule =>
    if rule.rhsSimplifiedFlag then st
    else
      let rp := simplify st rule.rhs
      if rp.2.isEmpty then st
      else
        let st1 := setRuleAt st ruleID (fun r => { r with rhsSimplifiedFlag := true })
        let newRuleID := st1.rules.length
        let newRule : Rule := { lhs := rule.lhs, rhs := rp.1 }
        let st2 := { st1 with rules := st1.rules ++ [newRule] }
        let ins := trieInsert st2.trie rule.lhs newRuleID
        let st3 := { st2 with trie := ins.2 }
        recordRewriteLoop st3 rule.lhs
          ([RewriteStep.forRewriteRule 0 0 ruleID false] ++ rp.2 ++
            [RewriteStep.forRewriteRule 0 0 newRuleID true])

/-- `RewriteSystem::simplifyRightHandSides`: reduce the right-hand sides of
all rules present at entry. -/
def simplifyRightHandSides (st : RwState) : RwState :=
  (List.range st.rules.length).foldl simplifyRhsOne st

/-- From `RewriteSystem::hadError`: a non-permanent rule is conflicting, or
is non-redundant and mentions an unresolved name symbol. -/
def hadError (st : RwState) : Bool :=
  st.rules.any (fun r =>
    !r.permanentFlag &&
      (r.conflictingFlag || (!r.redundantFlag && r.containsUnresolvedSymbols)))

/-! ### Homotopy reduction

From HomotopyReduction.cpp.  The rewrite path evaluator
(`RewritePathEvaluator`, in RewriteLoop.cpp, not among the sources) is
modelled by the sizes of its two term stacks, which is everything its
`isInContext` query consults: a `Shift` moves the top of the primary stack
to the secondary stack, a `Decompose` pushes (or, inverted, pops) as many
terms as the symbol has substitutions, and the remaining step kinds leave
the stack shape unchanged. -/

structure EvalCtx where
  primary : Nat
  secondary : Nat
deriving DecidableEq

def EvalCtx.initial : EvalCtx := ⟨1, 0⟩

def EvalCtx.isInContext (c : EvalCtx) : Bool :=
  decide (1 < c.primary) || decide (0 < c.secondary)

def EvalCtx.applyStep (c : EvalCtx) (s : RewriteStep) : EvalCtx :=
  match s.kind with
  | .shift =>
    if s.inverse then ⟨c.primary + 1, c.secondary - 1⟩
    else ⟨c.primary - 1, c.secondary + 1⟩
  | .decompose =>
    if s.inverse then ⟨c.primary - s.arg, c.secondary⟩
    else ⟨c.primary + s.arg, c.secondary⟩
  | .decomposeConcrete =>
    if s.inverse then ⟨c.primary - s.arg, c.secondary⟩
    else ⟨c.primary + s.arg, c.secondary⟩
  | _ => c

/-- Rule steps of a path applied outside of any context (neither the step
nor the evaluator is in context when it applies). -/
def emptyCtxRules : RewritePath → EvalCtx → List Nat
  | [], _ => []
  | s :: rest, ctx =>
    let tail := emptyCtxRules rest (ctx.applyStep s)
    if s.kind = .rule && !s.isInContext && !ctx.isInContext then s.arg :: tail
    else tail

def ruleMultiplicity (path : RewritePath) (rid : Nat) : Nat :=
  path.countP (fun s => s.kind = .rule && decide (s.arg = rid))

/-- From `RewriteLoop::findRulesAppearingOnceInEmptyContext` (the `Dirty`
bit of the C++ caches this computation; the model recomputes it). -/
def findRulesOnce (loop : RewriteLoop) : List Nat :=
  (emptyCtxRules loop.path EvalCtx.initial).dedup.filter
    (fun rid => ruleMultiplicity loop.path rid = 1)

/-- Accumulator for `splitCycleAtRule`. -/
structure SplitAcc where
  bpToLhs : RewritePath
  rhsToBp : RewritePath
  sawRule : Bool
  ruleInverted : Bool

/-- From `RewritePath::splitCycleAtRule`: delete the occurrence of the rule
from the cycle and return the path from the rule's left-hand side to its
right-hand side through the basepoint. -/
def splitCycleAtRule (p : RewritePath) (ruleID : Nat) : RewritePath :=
  let acc := p.foldl
    (fun (acc : SplitAcc) step =>
      if step.kind = .rule && decide (step.arg = ruleID) then
        { acc with sawRule := true, ruleInverted := step.inverse }
      else if acc.sawRule then { acc with rhsToBp := acc.rhsToBp ++ [step] }
      else { acc with bpToLhs := acc.bpToLhs ++ [step] })
    ⟨[], [], false, false⟩
  let result := acc.rhsToBp ++ acc.bpToLhs
  if !acc.ruleInverted then pathInvert result else result

/-- Re-contextualize the steps of a replacement path at one occurrence of
the replaced rule, from the `recontextualizeStep` closure in
`RewritePath::replaceRuleWithPath`: offsets are shifted by the occurrence's
offsets, except for steps between balanced `Decompose` pairs, which operate
on pushed terms. -/
def recontextualize (ctxStep : RewriteStep) (p : RewritePath) : RewritePath :=
  let src := if ctxStep.inverse then p.reverse else p
  (src.foldl
    (fun (acc : RewritePath × Nat) newStep =>
      let inv := newStep.inverse != ctxStep.inverse
      let dc1 :=
        if (newStep.kind = .decompose || newStep.kind = .decomposeConcrete) && inv
        then acc.2 - 1 else acc.2
      let adjusted :=
        if dc1 = 0 then
          { newStep with
              startOffset := newStep.startOffset + ctxStep.startOffset,
              endOffset := newStep.endOffset + ctxStep.endOffset,
              inverse := inv }
        else { newStep with inverse := inv }
      let dc2 :=
        if (newStep.kind = .decompose || newStep.kind = .decomposeConcrete) && !inv
        then dc1 + 1 else dc1
      (acc.1 ++ [adjusted], dc2))
    ([], 0)).1

/-- From `RewritePath::replaceRuleWithPath`: replace every step involving
the rule with the (re-contextualized, possibly inverted) replacement path;
`false` means the rule did not appear. -/
def replaceRuleWithPath (p : RewritePath) (ruleID : Nat) (repl : RewritePath) :
    Bool × RewritePath :=
  if !(p.any (fun s => s.kind = .rule && decide (s.arg = ruleID))) then (false, p)
  else
    (true,
      p.foldl
        (fun acc step =>
          if step.kind = .rule && decide (step.arg = ruleID) then
            acc ++ recontextualize step repl
          else acc ++ [step])
        [])

def markLoopDeleted (st : RwState) (i : Nat) : RwState :=
  match st.loops[i]? with
  | none => st
  | some l => { st with loops := st.loops.set i { l with deleted := true } }

/-- The candidate-gathering scan of `RewriteSystem::findRuleToDelete`:
collect `(loop, rule)` pairs for rules appearing once in empty context, and
delete loops that yield no candidates. -/
def scanLoops (st : RwState) : List (Nat × Nat) × RwState :=
  (List.range st.loops.length).foldl
    (fun (acc : List (Nat × Nat) × RwState) loopID =>
      match acc.2.loops[loopID]? with
      | none => acc
      | some loop =>
        if loop.deleted then acc
        else
          let rs := findRulesOnce loop
          if rs.isEmpty then (acc.1, markLoopDeleted acc.2 loopID)
          else (acc.1 ++ rs.map (fun r => (loopID, r)), acc.2))
    ([], st)

/-- The selection fold of `RewriteSystem::findRuleToDelete`: skip permanent
rules and rules rejected by the pass's filter, and among the remaining
candidates keep the least canonical rule (the one comparing greatest). -/
def selectCandidate (st : RwState) (filter : Nat → Bool)
    (cands : List (Nat × Nat)) : Option (Nat × Nat) :=
  cands.foldl
    (fun found pair =>
      match st.rules[pair.2]? with
      | none => found
      | some rule =>
        if rule.permanentFlag then found
        else if !filter pair.2 then found
        else
          match found with
          | none => some pair
          | some fnd =>
            match st.rules[fnd.2]? with
            | none => found
            | some otherRule =>
              if rule.cmp otherRule = .gt then some pair else found)
    none

/-- From `RewriteSystem::findRuleToDelete`. -/
def findRuleToDelete (st : RwState) (filter : RwState → Nat → Bool) :
    Option (Nat × RewritePath) × RwState :=
  let scanned := scanLoops st
  let st1 := scanned.2
  match selectCandidate st1 (filter st1) scanned.1 with
  | none => (none, st1)
  | some (loopID, ruleID) =>
    match st1.loops[loopID]? with
    | none => (none, st1)
    | some loop =>
      let replacementPath := splitCycleAtRule loop.path ruleID
      let st2 := markLoopDeleted st1 loopID
      let st3 := setRuleAt st2 ruleID (fun r => { r with redundantFlag := true })
      (some (ruleID, replacementPath), st3)

/-- From `RewriteSystem::deleteRule`: replace the rule in all remaining
loops with the replacement path. -/
def deleteRule (st : RwState) (ruleID : Nat) (repl : RewritePath) : RwState :=
  { st with
      loops := st.loops.map (fun l =>
        if l.deleted then l
        else
          let r := replaceRuleWithPath l.path ruleID repl
          if r.1 then { l with path := r.2 } else l) }

/-- The loop of `RewriteSystem::performHomotopyReduction`, run on an
explicit fuel; every successful `findRuleToDelete` deletes a loop, so the
number of loops bounds the iterations needed. -/
def performHomotopyReductionGo (filter : RwState → Nat → Bool) :
    Nat → RwState → RwState
  | 0, st => st
  | fuel + 1, st =>
    let r := findRuleToDelete st filter
    match r.1 with
    | none => r.2
    | some (ruleID, repl) =>
      performHomotopyReductionGo filter fuel (deleteRule r.2 ruleID repl)

def performHomotopyReduction (st : RwState) (filter : RwState → Nat → Bool) :
    RwState :=
  performHomotopyReductionGo filter (st.loops.length + 1) st

/-- From `RewriteSystem::propagateExplicitBits`. -/
def propagateExplicitBits (st : RwState) : RwState :=
  st.loops.foldl
    (fun st loop =>
      let rs := findRulesOnce loop
      let sawExplicit := rs.any (fun rid =>
        match st.rules[rid]? with
        | some r => r.explicitFlag
        | none => false)
      if sawExplicit then
        rs.foldl
          (fun st rid =>
            match st.rules[rid]? with
            | some r =>
              if !r.permanentFlag && !r.explicitFlag then
                setRuleAt st rid (fun r => { r with explicitFlag := true })
              else st
            | none => st)
          st
      else st)
    st

/-- First-pass filter of `minimizeRewriteSystem`: LHS-simplified
non-conformance rules, RHS- or substitution-simplified rules, and rules
with unresolved symbols on the left. -/
def pass1Filter (st : RwState) (ruleID : Nat) : Bool :=
  match st.rules[ruleID]? with
  | none => false
  | some rule =>
    (rule.lhsSimplifiedFlag && !rule.isAnyConformanceRule) ||
      rule.rhsSimplifiedFlag || rule.substitutionSimplifiedFlag ||
      termContainsUnresolved rule.lhs

/-- Second-pass filter: conformance rules found to be non-minimal. -/
def pass2Filter (redundantConformances : List Nat) (st : RwState)
    (ruleID : Nat) : Bool :=
  match st.rules[ruleID]? with
  | none => false
  | some rule =>
    rule.isAnyConformanceRule && redundantConformances.contains ruleID

/-- Third-pass filter: all remaining non-conformance rules. -/
def pass3Filter (st : RwState) (ruleID : Nat) : Bool :=
  match st.rules[ruleID]? with
  | none => false
  | some rule => !rule.isAnyConformanceRule

/-- From `RewriteSystem::minimizeRewriteSystem`.  The set of non-minimal
conformances is computed by `computeMinimalConformances`
(MinimalConformances.cpp, not among the sources); it is modelled from the
spec as a parameter producing the rule indices of non-minimal conformance
rules, and it only reads the system.  The `verifyRewriteLoops` calls are
debug-build assertions and have no effect on the state. -/
def minimizeRewriteSystem (minConf : RwState → List Nat) (st : RwState) :
    RwState :=
  let st1 := propagateExplicitBits st
  let st2 := performHomotopyReduction st1 pass1Filter
  let redundantConformances := minConf st2
  let st3 := performHomotopyReduction st2 (pass2Filter redundantConformances)
  performHomotopyReduction st3 pass3Filter

/-! ### Property map: layout properties

From `PropertyMap::addLayoutProperty`, `recordConflict` and the static
`recordRelation` in PropertyUnification.cpp.  Only the fields of
`PropertyBag` that these operations touch are modelled.  The property bag
container itself (`getOrCreateProperties`, in PropertyMap.cpp) is not among
the sources and is modelled as a keyed list.  In addition to flagging the
rules, the model logs each `recordConflict` invocation, so that theorems
can speak about the number of conflicts reported. -/

structure PropBag where
  key : Term
  conformsTo : List Nat := []
  conformsToRules : List Nat := []
  layout : Option (List Nat) := none
  layoutRule : Option Nat := none
deriving DecidableEq

structure PMap where
  entries : List PropBag
  checkedRulePairs : List (Nat × Nat)
  conflictsRecorded : List (Nat × Nat)
deriving DecidableEq

/-- Index of the bag for `key`, creating it if absent (modelled from
`PropertyMap::getOrCreateProperties`). -/
def getBagIdx (pm : PMap) (key : Term) : Nat × PMap :=
  match pm.entries.findIdx? (fun e => e.key == key) with
  | some i => (i, pm)
  | none =>
    (pm.entries.length, { pm with entries := pm.entries ++ [{ key := key }] })

/-- From `PropertyMap::checkRulePairOnce`. -/
def checkRulePairOnce (pm : PMap) (a b : Nat) : Bool × PMap :=
  if pm.checkedRulePairs.contains (a, b) then (false, pm)
  else (true, { pm with checkedRulePairs := pm.checkedRulePairs ++ [(a, b)] })

/-- From `recordConflict` in PropertyUnification.cpp: the new rule is always
flagged conflicting; the existing rule is also flagged when the two
property kinds agree (and are not superclass kinds) and the existing rule's
right-hand side is the key itself. -/
def recordConflict (key : Term) (existingRuleID newRuleID : Nat)
    (pm : PMap) (st : RwState) : PMap × RwState :=
  let pm' :=
    { pm with conflictsRecorded :=
        pm.conflictsRecorded ++ [(existingRuleID, newRuleID)] }
  match st.rules[existingRuleID]?, st.rules[newRuleID]? with
  | some existingRule, some newRule =>
    match existingRule.isPropertyRule, newRule.isPropertyRule with
    | some ep, some np =>
      let st1 :=
        if (match ep with | .superclass _ => false | _ => true) &&
            decide (ep.kindRank = np.kindRank) &&
            decide (existingRule.rhs.length = key.length) then
          setRuleAt st existingRuleID (fun r => { r with conflictingFlag := true })
        else st
      (pm', setRuleAt st1 newRuleID (fun r => { r with conflictingFlag := true }))
    | _, _ => (pm', st)
  | _, _ => (pm', st)

/-- Record (uniquing) a relation pair; modelled from
`RewriteSystem::recordRelation`, whose definition is not among the
sources: the pair's first component is the smaller term. -/
def recordRelationIdx (st : RwState) (lhs rhs : Term) : Nat × RwState :=
  match st.relations.findIdx? (fun p => p == (lhs, rhs)) with
  | some i => (i, st)
  | none =>
    (st.relations.length, { st with relations := st.relations ++ [(lhs, rhs)] })

/-- The relation recorded for two property symbols `[p1] < [p2]` rewrites
`[p1].[p2]` to `[p1]`. -/
def recordRelationSyms (st : RwState) (l r : Symbol) : Nat × RwState :=
  recordRelationIdx st [l] [l, r]

/-- From the static `recordRelation` in PropertyUnification.cpp: given key
`T = U.V`, a rule `(V.[p1] => V)` and a property `[p2]` implied by `[p1]`,
record the relation and add the rule `(T.[p2] => T)` justified by a path
through the original rule and the relation. -/
def recordRelationProp (key : Term) (lhsRuleID : Nat) (rhsProperty : Symbol)
    (st : RwState) : Option RwState :=
  match st.rules[lhsRuleID]? with
  | none => some st
  | some lhsRule =>
    match lhsRule.lhs.getLast? with
    | none => some st
    | some lhsProperty =>
      let rr := recordRelationSyms st lhsProperty rhsProperty
      let path : RewritePath :=
        [RewriteStep.forRewriteRule (key.length - lhsRule.rhs.length) 1
          lhsRuleID true,
         RewriteStep.forRelation key.length rr.1 false,
         RewriteStep.forRewriteRule (key.length - lhsRule.rhs.length) 0
          lhsRuleID false]
      match addRule rr.2 (key ++ [rhsProperty]) key (some path) with
      | none => none
      | some r => some r.2

/-- Intersection of two layout constraints.  Modelled from the spec:
`LayoutConstraint::merge` (external to these sources) intersects the
constraints, an empty intersection being the unsatisfiable (unknown)
layout. -/
def layoutMerge (a b : List Nat) : List Nat :=
  a.filter (fun x => b.contains x)

/-- From `PropertyMap::addLayoutProperty`.  `none` models the two aborts
(the assertion that a recorded layout has a recording rule, and the
`abort()` on an arbitrary intersection) and a duplicate-rule abort inside
`addRule`. -/
def addLayoutProperty (key : Term) (property : Symbol) (ruleID : Nat)
    (pm : PMap) (st : RwState) : Option (PMap × RwState) :=
  match property with
  | .layout newLayout =>
    let gb := getBagIdx pm key
    let i := gb.1
    let pm1 := gb.2
    match pm1.entries[i]? with
    | none => some (pm1, st)
    | some props =>
      match props.layout with
      | none =>
        let props' : PropBag :=
          { props with layout := some newLayout, layoutRule := some ruleID }
        some ({ pm1 with entries := pm1.entries.set i props' }, st)
      | some oldLayout =>
        match props.layoutRule with
        | none => none
        | some oldRuleID =>
          let merged := layoutMerge oldLayout newLayout
          if merged.isEmpty then
            some (recordConflict key oldRuleID ruleID pm1 st)
          else if merged = oldLayout then
            let cp := checkRulePairOnce pm1 oldRuleID ruleID
            if cp.1 then
              match recordRelationProp key oldRuleID property st with
              | none => none
              | some st1 => some (cp.2, st1)
            else some (cp.2, st)
          else if merged = newLayout then
            let cp := checkRulePairOnce pm1 ruleID oldRuleID
            let stepRes :=
              if cp.1 then
                match st.rules[oldRuleID]? with
                | none => some st
                | some oldRule =>
                  match oldRule.lhs.getLast? with
                  | none => some st
                  | some oldProperty => recordRelationProp key ruleID oldProperty st
              else some st
            match stepRes with
            | none => none
            | some st1 =>
              let props' : PropBag := { props with layoutRule := some ruleID }
              some ({ cp.2 with entries := cp.2.entries.set i props' }, st1)
          else none
  | _ => some (pm, st)

/-! ### The first-generation rewrite system

From lib/AST/RewriteSystem.cpp and include/swift/AST/RewriteSystem.h (the
`Atom`-based system): rules are plain oriented pairs with a deletion flag,
completion works over an explicit FIFO worklist of rule pairs, and
simplification applies every rule in order until a full pass changes
nothing.  The protocol graph enters only through `inheritsFrom` (protocol
handles are already ordered by their numeric value). -/

abbrev ProtocolGraph := Nat → Nat → Bool

structure OldRule where
  lhs : Term
  rhs : Term
  deleted : Bool := false
deriving DecidableEq

structure OldState where
  rules : List OldRule
  worklist : List (Nat × Nat)
  merged : List (Term × Term)
deriving DecidableEq

/-- One pass of the first-generation `simplify`: apply each non-deleted
rule in order, rewriting the first occurrence of its left-hand side. -/
def oldSimplifyRound (rules : List OldRule) (t : Term) : Term × Bool :=
  rules.foldl
    (fun (acc : Term × Bool) r =>
      if r.deleted then acc
      else
        match rewriteSubTermFirst acc.1 r.lhs r.rhs with
        | none => acc
        | some t' => (t', true))
    (t, false)

def oldSimplifyGo (rules : List OldRule) : Nat → Term → Term
  | 0, t => t
  | fuel + 1, t =>
    let r := oldSimplifyRound rules t
    if r.2 then oldSimplifyGo rules fuel r.1 else t

def oldAlphabet (rules : List OldRule) (t : Term) : List Symbol :=
  t ++ rules.foldr (fun r acc => r.lhs ++ r.rhs ++ acc) []

/-- The first-generation `RewriteSystem::simplify`, run on the same
alphabet-encoding fuel as the second generation's: each changed pass
strictly decreases the well-founded term order. -/
def oldSimplify (rules : List OldRule) (t : Term) : Term :=
  oldSimplifyGo rules (enc (oldAlphabet rules t) t) t

/-- The first-generation `RewriteSystem::addRule`: simplify both sides,
drop the rule if they coincide, otherwise orient, append, record a merge
candidate when both sides end in same-named associated types, and enqueue
overlap checks `(i, j)` and `(j, i)` against every other non-deleted
rule. -/
def oldAddRule (st : OldState) (lhs0 rhs0 : Term) : Bool × OldState :=
  let lhs := oldSimplify st.rules lhs0
  let rhs := oldSimplify st.rules rhs0
  match termCmp lhs rhs with
  | .eq => (false, st)
  | c =>
    let pair := if c = .lt then (rhs, lhs) else (lhs, rhs)
    let i := st.rules.length
    let newRule : OldRule := { lhs := pair.1, rhs := pair.2 }
    let st1 := { st with rules := st.rules ++ [newRule] }
    let st2 :=
      if mergeCandidate pair.1 pair.2 then
        { st1 with merged := st1.merged ++ [(pair.1, pair.2)] }
      else st1
    let newPairs := (List.range st2.rules.length).flatMap
      (fun j =>
        if j = i then []
        else
          match st2.rules[j]? with
          | some rj => if rj.deleted then [] else [(i, j), (j, i)]
          | none => [])
    (true, { st2 with worklist := st2.worklist ++ newPairs })

inductive OverlapKind where
  | first
  | second
deriving DecidableEq

/-- From `MutableTerm::checkForOverlap`: either `other` occurs wholly
inside `t` (`t = T ++ other ++ V` with `V` non-empty), or a prefix of
`other` equals a suffix of `t` (`t = T ++ U`, `other = U ++ V`).  Returns
the pieces `T` and `V`. -/
def checkForOverlap (t other : Term) : Option (OverlapKind × Term × Term) :=
  if other.length > t.length then none
  else
    match (List.range (t.length - other.length)).find?
        (fun p => other.isPrefixOf (t.drop p)) with
    | some p => some (.first, t.take p, t.drop (p + other.length))
    | none =>
      match (List.range' (t.length - other.length) other.length).find?
          (fun p => (t.drop p).isPrefixOf other) with
      | some p => some (.second, t.take p, other.drop (t.length - p))
      | none => none

/-- From the static `computeCriticalPair` in lib/AST/RewriteSystem.cpp. -/
def computeCriticalPair (lhs rhs : OldRule) : Option (Term × Term) :=
  match checkForOverlap lhs.lhs rhs.lhs with
  | none => none
  | some (.first, t, v) => some (lhs.rhs, t ++ rhs.rhs ++ v)
  | some (.second, t, v) => some (lhs.rhs ++ v, t ++ rhs.rhs)

/-- Stable merge of two protocol lists in protocol order, from the
`std::merge` call in `mergeAssociatedTypes`. -/
def mergeSortedNat : List Nat → List Nat → List Nat
  | [], ys => ys
  | xs, [] => xs
  | x :: xs, y :: ys =>
    if y < x then y :: mergeSortedNat (x :: xs) ys
    else x :: mergeSortedNat xs (y :: ys)

/-- From `RewriteSystem::mergeAssociatedTypes`: merge the protocol lists
and keep the entries not dominated (by equality or inheritance) by an entry
of the first list. -/
def mergeAssociatedTypes (g : ProtocolGraph) (lhsA rhsA : Symbol) : Symbol :=
  match lhsA, rhsA with
  | .assocType protos n, .assocType otherProtos _ =>
    let newProtos := mergeSortedNat protos otherProtos
    let minimalProtos := newProtos.filter
      (fun newP => !(protos.any (fun thisP => thisP = newP || g thisP newP)))
    .assocType minimalProtos n
  | _, _ => lhsA

/-- Process one associated-type merge candidate, from the body of the
`while` loop in `processMergedAssociatedTypes`: add the two rules equating
each side with the merged term, then lift conformance rules of either
original symbol onto the merged symbol. -/
def processMergedOne (g : ProtocolGraph) (st : OldState) (pair : Term × Term) :
    OldState :=
  match pair.1.getLast?, pair.2.getLast? with
  | some la, some ra =>
    let mergedAtom := mergeAssociatedTypes g la ra
    let mergedTerm := pair.1.dropLast ++ [mergedAtom]
    let st1 := (oldAddRule st pair.1 mergedTerm).2
    let st2 := (oldAddRule st1 pair.2 mergedTerm).2
    st2.rules.foldl
      (fun st r =>
        match r.lhs with
        | [a, .proto q] =>
          if a = la || a = ra then
            (oldAddRule st [mergedAtom, .proto q] [mergedAtom]).2
          else st
        | _ => st)
      st2
  | _, _ => st

def processMergedGo (g : ProtocolGraph) : Nat → OldState → Nat → OldState
  | 0, st, _ => st
  | fuel + 1, st, i =>
    match st.merged[i]? with
    | some pair => processMergedGo g fuel (processMergedOne g st pair) (i + 1)
    | none => { st with merged := [] }

/-- From `RewriteSystem::processMergedAssociatedTypes`: chase the candidate
vector (which the nested `addRule` calls may extend) to its end, then clear
it.  The chase is run on an explicit fuel bounding the cascade. -/
def processMergedAssociatedTypes (g : ProtocolGraph) (st : OldState) :
    OldState :=
  if st.merged.isEmpty then st
  else processMergedGo g (st.merged.length + 16) st 0

/-- Mark as deleted every other rule whose left-hand side can be reduced by
the newly added rule `i`, from the deletion loop in
`computeConfluentCompletion`. -/
def deleteObsoleted (st : OldState) (i : Nat) : OldState :=
  match st.rules[i]? with
  | none => st
  | some newRule =>
    (List.range st.rules.length).foldl
      (fun st j =>
        if j = i then st
        else
          match st.rules[j]? with
          | none => st
          | some rj =>
            if rj.deleted then st
            else if (findSubTermIdx rj.lhs newRule.lhs).isSome then
              { st with rules := st.rules.set j { rj with deleted := true } }
            else st)
      st

inductive CompletionResult where
  | success
  | maxIterations
  | maxDepth
deriving DecidableEq

inductive StepOutcome where
  | emptyQueue
  | next (st : OldState) (steps : Nat)
  | failed (r : CompletionResult) (st : OldState) (steps : Nat)
deriving DecidableEq

/-- One iteration of the `while` loop of
`RewriteSystem::computeConfluentCompletion`: pop a pair, compute its
critical pair, try to add the repairing rule; on success count the step
against `maxIterations` and check the new rule's depth against `maxDepth`,
then delete obsoleted rules and process pending merges. -/
def completionBody (g : ProtocolGraph) (maxIterations maxDepth : Nat)
    (st : OldState) (steps : Nat) : StepOutcome :=
  match st.worklist with
  | [] => .emptyQueue
  | (i, j) :: rest =>
    let st0 := { st with worklist := rest }
    match st0.rules[i]?, st0.rules[j]? with
    | some lhsRule, some rhsRule =>
      match computeCriticalPair lhsRule rhsRule with
      | none => .next st0 steps
      | some pair =>
        let i' := st0.rules.length
        let ar := oldAddRule st0 pair.1 pair.2
        if !ar.1 then .next ar.2 steps
        else
          let steps' := steps + 1
          if maxIterations ≤ steps' then .failed .maxIterations ar.2 steps'
          else
            match ar.2.rules[i']? with
            | none => .next ar.2 steps'
            | some newRule =>
              if maxDepth < newRule.lhs.length then .failed .maxDepth ar.2 steps'
              else
                .next (processMergedAssociatedTypes g (deleteObsoleted ar.2 i'))
                  steps'
    | _, _ => .next st0 steps

/-- The final cleanup of `computeConfluentCompletion`: re-simplify the
right-hand sides of the surviving rules. -/
def finalSimplifyRhs (st : OldState) : OldState :=
  (List.range st.rules.length).foldl
    (fun st i =>
      match st.rules[i]? with
      | none => st
      | some r =>
        if r.deleted then st
        else
          let r' : OldRule := { r with rhs := oldSimplify st.rules r.rhs }
          { st with rules := st.rules.set i r' })
    st

theorem oldAddRule_false {st : OldState} {l r : Term} {st' : OldState}
    (h : oldAddRule st l r = (false, st')) : st' = st := by
  simp only [oldAddRule] at h
  split at h
  · rw [Prod.mk.injEq] at h
    exact h.2.symm
  · rw [Prod.mk.injEq] at h
    exact Bool.noConfusion h.1

theorem completionBody_next {g : ProtocolGraph} {mi md : Nat} {st : OldState}
    {steps : Nat} {st' : OldState} {steps' : Nat}
    (h : completionBody g mi md st steps = .next st' steps') :
    (steps' = steps ∧ st'.worklist.length + 1 = st.worklist.length) ∨
      (steps < steps' ∧ steps' < mi) := by
  simp only [completionBody] at h
  split at h
  · cases h
  · rename_i i j rest heq
    split at h
    · split at h
      · cases h
        exact Or.inl ⟨rfl, by simp [heq]⟩
      · rename_i pair hpair
        split at h
        · rename_i har
          rcases hr : oldAddRule { st with worklist := rest } pair.1 pair.2 with
            ⟨b, s2⟩
          rw [hr] at har h
          simp only [Bool.not_eq_eq_eq_not, Bool.not_true] at har
          cases h
          have hb : b = false := by simpa using har
          rw [hb] at hr
          have := oldAddRule_false hr
          rw [this]
          exact Or.inl ⟨rfl, by simp [heq]⟩
        · split at h
          · cases h
          · split at h
            · cases h
              exact Or.inr ⟨by omega, by omega⟩
            · split at h
              · cases h
              · cases h
                exact Or.inr ⟨by omega, by omega⟩
    · cases h
      exact Or.inl ⟨rfl, by simp [heq]⟩

/-- The driver of `computeConfluentCompletion`: iterate `completionBody`
until the queue empties (success, after the final cleanup) or a limit is
hit. -/
def completionGo (g : ProtocolGraph) (maxIterations maxDepth : Nat)
    (st : OldState) (steps : Nat) : CompletionResult × OldState :=
  match hbody : completionBody g maxIterations maxDepth st steps with
  | .emptyQueue => (.success, finalSimplifyRhs st)
  | .failed r st' _ => (r, st')
  | .next st' steps' => completionGo g maxIterations maxDepth st' steps'
termination_by (maxIterations - steps, st.worklist.length)
decreasing_by
  rcases completionBody_next hbody with ⟨he, hl⟩ | ⟨h1, h2⟩
  · rw [he]
    exact Prod.Lex.right _ (by omega)
  · exact Prod.Lex.left _ _ (by omega)

/-- `RewriteSystem::computeConfluentCompletion`. -/
def computeConfluentCompletion (g : ProtocolGraph)
    (maxIterations maxDepth : Nat) (st : OldState) :
    CompletionResult × OldState :=
  completionGo g maxIterations maxDepth st 0

inductive MachineOutcome where
  | aborted (r : CompletionResult)
  | completed (st : OldState)
deriving DecidableEq

/-- From `RequirementMachine::computeCompletion`: run Knuth-Bendix, abort
the whole construction on failure, build the property map (not among the
sources; modelled as a parameter returning a completion result, the number
of added rules, and the updated system), abort on failure again, and loop
until property map construction adds no rules.  The outer loop is run on an
explicit fuel. -/
def machineComputeCompletion (g : ProtocolGraph) (mi md : Nat)
    (buildPropertyMap : OldState → (CompletionResult × Nat) × OldState) :
    Nat → OldState → MachineOutcome
  | 0, st => .completed st
  | fuel + 1, st =>
    let kb := computeConfluentCompletion g mi md st
    match kb.1 with
    | .maxIterations => .aborted .maxIterations
    | .maxDepth => .aborted .maxDepth
    | .success =>
      let pm := buildPropertyMap kb.2
      match pm.1.1 with
      | .maxIterations => .aborted .maxIterations
      | .maxDepth => .aborted .maxDepth
      | .success =>
        if pm.1.2 = 0 then .completed pm.2
        else machineComputeCompletion g mi md buildPropertyMap fuel pm.2

/-! ### Concrete contraction

From lib/AST/RequirementMachine/ConcreteContraction.cpp.  Types are a
small first-order model of the AST: generic parameters, dependent member
types (resolved ones carry the associated type's protocol), nominal
declarations and type application.  The parts of the AST that live outside
the sources (qualified name lookup, conformance lookup, the type witness
projection, requirement desugaring) enter as an explicit environment of
functions. -/

inductive Ty where
  | param (n : Nat)
  | member (base : Ty) (name : Nat) (assocProto : Option Nat)
  | nominal (d : Nat)
  | app (fn : Ty) (arg : Ty)
deriving DecidableEq

/-- `Type::isTypeParameter`: a generic parameter or a member chain rooted
in one. -/
def Ty.isTypeParam : Ty → Bool
  | .param _ => true
  | .member base _ _ => base.isTypeParam
  | _ => false

/-- `Type::getRootGenericParam` as a key. -/
def Ty.rootKey : Ty → Nat
  | .param n => n
  | .member base _ _ => base.rootKey
  | _ => 0

/-- `Type::getAnyNominal`: the nominal declaration at the head of a type
application, if any. -/
def Ty.anyNominal : Ty → Option Nat
  | .nominal d => some d
  | .app f _ => f.anyNominal
  | _ => none

inductive Req where
  | confReq (first : Ty) (proto : Nat)
  | superReq (first : Ty) (second : Ty)
  | sameReq (first : Ty) (second : Ty)
  | layoutReq (first : Ty) (layoutId : Nat)
deriving DecidableEq

/-- `StructuralRequirement`: a requirement with its source location and
inference flag. -/
structure StructReq where
  req : Req
  loc : Nat
  inferred : Bool
deriving DecidableEq

/-- The AST facilities `ConcreteContraction` calls into but whose code is
outside the staged sources: conformance lookup, the type-witness
projection of a resolved member type, qualified member lookup combined
with the context substitution, a protocol's superclass bound, and
requirement desugaring. -/
structure AstEnv where
  lookupConf : Ty → Nat → Bool
  assocWitness : Ty → Nat → Nat → Ty
  lookupNested : Ty → Nat → Option Ty
  protoSuper : Nat → Option Ty
  desugar : Req → List Req

/-- The three-argument `ConcreteContraction::substTypeParameter`: walk the
member chain down to the root parameter, replace the root by
`concreteType`, and resolve each member hop; `none` when a conformance is
missing or a name lookup fails, in which case the caller leaves the type
unsubstituted. -/
def substChain (env : AstEnv) : Ty → Ty → Option Ty
  | .param _, concreteType => some concreteType
  | .member base name assocP, concreteType =>
    match substChain env base concreteType with
    | none => none
    | some substBase =>
      match assocP with
      | some p =>
        if substBase.isTypeParam || env.lookupConf substBase p then
          some (env.assocWitness substBase p name)
        else none
      | none =>
        match substBase.anyNominal with
        | none => none
        | some _ => env.lookupNested substBase name
  | _, _ => none

/-- The per-parameter requirement data collected in phase 1:
`ConcreteTypes` and `Superclasses` map a parameter to a set of types,
`Conformances` to a vector of protocols. -/
structure CCMaps where
  concreteTypes : List (Nat × Ty)
  superclasses : List (Nat × Ty)
  conformances : List (Nat × Nat)

/-- Set insertion for the per-key type sets. -/
def insertUnique (l : List (Nat × Ty)) (k : Nat) (t : Ty) : List (Nat × Ty) :=
  if (k, t) ∈ l then l else l ++ [(k, t)]

/-- `found != end() && found->second.size() == 1`: the single entry of the
key's set, if the set has exactly one. -/
def uniqueFor (l : List (Nat × Ty)) (k : Nat) : Option Ty :=
  match (l.filter (fun p => p.1 == k)).map Prod.snd with
  | [t] => some t
  | _ => none

def eraseKey (l : List (Nat × Ty)) (k : Nat) : List (Nat × Ty) :=
  l.filter (fun p => p.1 != k)

/-- The two-argument `ConcreteContraction::substTypeParameter`: choose the
unique concrete type (preferred) or superclass of the root parameter; a
superclass does not replace a bare parameter unless it is the subject of a
conformance requirement; a failed chain substitution falls back to the
unchanged type. -/
def substTypeParameterTop (env : AstEnv) (cc : CCMaps) (t : Ty)
    (subjectOfConformance : Bool) : Ty :=
  let concreteOpt := uniqueFor cc.concreteTypes t.rootKey
  let superOpt := uniqueFor cc.superclasses t.rootKey
  if concreteOpt.isNone && superOpt.isNone then t
  else
    let chosen : Option Ty :=
      match concreteOpt with
      | some c => some c
      | none =>
        match t, subjectOfConformance with
        | .param _, false => none
        | _, _ => superOpt
    match chosen with
    | none => t
    | some c =>
      match substChain env t c with
      | none => t
      | some result => result

/-- `ConcreteContraction::substType` via `transformRec`: substitute every
type parameter in structural position, recursing into children of
non-parameters. -/
def substTypeAll (env : AstEnv) (cc : CCMaps) : Ty → Ty
  | .param n => substTypeParameterTop env cc (.param n) false
  | .member base name a =>
    if Ty.isTypeParam (.member base name a) then
      substTypeParameterTop env cc (.member base name a) false
    else
      .member (substTypeAll env cc base) name a
  | .nominal d => .nominal d
  | .app f a => .app (substTypeAll env cc f) (substTypeAll env cc a)

/-- `ConcreteContraction::substRequirement`.  Note the return type: the
substitution of a requirement never fails; individual failed lookups have
already fallen back to the unsubstituted type. -/
def substRequirement (env : AstEnv) (cc : CCMaps) : Req → Req
  | .superReq first second =>
    let substFirst :=
      match first with
      | .param n => Ty.param n
      | _ => substTypeParameterTop env cc first false
    .superReq substFirst (substTypeAll env cc second)
  | .sameReq first second =>
    let substFirst :=
      match first with
      | .param n => Ty.param n
      | _ => substTypeParameterTop env cc first false
    .sameReq substFirst (substTypeAll env cc second)
  | .confReq first p =>
    let substFirst := substTypeParameterTop env cc first true
    if !substFirst.isTypeParam && !env.lookupConf substFirst p then
      .confReq first p
    else
      .confReq substFirst p
  | .layoutReq first l =>
    .layoutReq (substTypeParameterTop env cc first false) l

/-- Phase 1 of `performConcreteContraction`: collect concrete-type,
superclass and conformance requirements whose subject is a generic
parameter. -/
def collectPhase (reqs : List StructReq) : CCMaps :=
  reqs.foldl
    (fun cc sr =>
      match sr.req with
      | .sameReq (.param p) second =>
        if second.isTypeParam then cc
        else { cc with concreteTypes := insertUnique cc.concreteTypes p second }
      | .superReq (.param p) second =>
        { cc with superclasses := insertUnique cc.superclasses p second }
      | .confReq (.param p) proto =>
        { cc with conformances := cc.conformances ++ [(p, proto)] }
      | _ => cc)
    ⟨[], [], []⟩

/-- The blocking pass: drop a parameter's superclass entry when the
parameter conforms to a protocol whose own superclass bound equals that
superclass. -/
def blockSuperclasses (env : AstEnv) (cc : CCMaps) : CCMaps :=
  cc.conformances.foldl
    (fun cc pr =>
      match uniqueFor cc.superclasses pr.1 with
      | none => cc
      | some sup =>
        match env.protoSuper pr.2 with
        | none => cc
        | some otherSup =>
          if sup = otherSup then
            { cc with superclasses := eraseKey cc.superclasses pr.1 }
          else cc)
    cc

/-- The `Optional<Requirement> substReq = substRequirement(req.req)` local
of phase 2, with the declared optionality of the original. -/
def substRequirementChecked (env : AstEnv) (cc : CCMaps) (r : Req) :
    Option Req :=
  some (substRequirement env cc r)

/-- Phase 2 of `performConcreteContraction`: substitute each requirement,
bail out if a substitution reports failure, desugar the substituted
requirement, and append the desugared requirements to the result. -/
def contractionFold (env : AstEnv) (cc : CCMaps) :
    List StructReq → List StructReq → Option (List StructReq)
  | [], result => some result
  | sr :: rest, result =>
    match substRequirementChecked env cc sr.req with
    | none => none
    | some r =>
      let push := (env.desugar r).map
        (fun dr => ({ req := dr, loc := sr.loc, inferred := sr.inferred } :
          StructReq))
      contractionFold env cc rest (result ++ push)

/-- `ConcreteContraction::performConcreteContraction`: `(false, _)` tells
the caller to keep the original requirements, `(true, result)` to replace
them. -/
def performConcreteContraction (env : AstEnv) (reqs : List StructReq) :
    Bool × List StructReq :=
  let cc := blockSuperclasses env (collectPhase reqs)
  if cc.concreteTypes.isEmpty && cc.superclasses.isEmpty then (false, [])
  else
    match contractionFold env cc reqs [] with
    | none => (false, [])
    | some result => (true, result)

theorem contractionFold_isSome (env : AstEnv) (cc : CCMaps) :
    ∀ reqs acc, ∃ res, contractionFold env cc reqs acc = some res := by
  intro reqs
  induction reqs with
  | nil => intro acc; exact ⟨acc, rfl⟩
  | cons sr rest ih =>
    intro acc
    simp only [contractionFold, substRequirementChecked]
    exact ih _

/-! ### Generic fold invariants -/

theorem foldl_preserve {α β γ : Type} (f : β → α → β) (g : β → γ)
    (hf : ∀ b a, g (f b a) = g b) :
    ∀ (l : List α) (b : β), g (l.foldl f b) = g b := by
  intro l
  induction l with
  | nil => intro b; rfl
  | cons x xs ih => intro b; rw [List.foldl_cons, ih, hf]

theorem foldl_rel {α β : Type} (R : β → β → Prop) (hrefl : ∀ b, R b b)
    (htrans : ∀ a b c, R a b → R b c → R a c)
    (f : β → α → β) (hf : ∀ b a, R b (f b a)) :
    ∀ (l : List α) (b : β), R b (l.foldl f b) := by
  intro l
  induction l with
  | nil => intro b; exact hrefl b
  | cons x xs ih => intro b; exact htrans _ _ _ (hf b x) (ih (f b x))

theorem foldl_inv {α β : Type} (P : β → Prop) (f : β → α → β)
    (hf : ∀ b a, P b → P (f b a)) :
    ∀ (l : List α) (b : β), P b → P (l.foldl f b) := by
  intro l
  induction l with
  | nil => intro b hb; exact hb
  | cons x xs ih => intro b hb; exact ih _ (hf b x hb)

/-! ### Shortest-match minimality of the trie lookup -/

theorem trieFindGo_min {suffix : Term} :
    ∀ {tr : RuleTrie} {acc : Option TrieEntry} {e : TrieEntry},
      trieFindGo suffix tr acc = some e →
      (∀ b, acc = some b → e.key.length ≤ b.key.length) ∧
      (∀ e' ∈ tr, e'.key.isPrefixOf suffix = true →
        e.key.length ≤ e'.key.length) := by
  intro tr
  induction tr with
  | nil =>
    intro acc e h
    refine ⟨?_, ?_⟩
    · intro b hb
      rw [hb] at h
      cases h
      exact Nat.le_refl _
    · intro e' he'
      cases he'
  | cons x xs ih =>
    intro acc e h
    cases acc with
    | none =>
      simp only [trieFindGo] at h
      by_cases hpre : x.key.isPrefixOf suffix
      · rw [if_pos hpre] at h
        obtain ⟨hA, hB⟩ := ih h
        have hx : e.key.length ≤ x.key.length := hA x rfl
        refine ⟨(fun b hb => nomatch hb), ?_⟩
        intro e' he' hpre'
        rcases List.mem_cons.mp he' with rfl | hmem
        · exact hx
        · exact hB e' hmem hpre'
      · rw [if_neg hpre] at h
        obtain ⟨hA, hB⟩ := ih h
        refine ⟨(fun b hb => nomatch hb), ?_⟩
        intro e' he' hpre'
        rcases List.mem_cons.mp he' with rfl | hmem
        · exact absurd hpre' hpre
        · exact hB e' hmem hpre'
    | some best =>
      simp only [trieFindGo] at h
      by_cases hpre : x.key.isPrefixOf suffix
      · rw [if_pos hpre] at h
        by_cases hlt : x.key.length < best.key.length
        · rw [if_pos hlt] at h
          obtain ⟨hA, hB⟩ := ih h
          have hx : e.key.length ≤ x.key.length := hA x rfl
          refine ⟨?_, ?_⟩
          · intro b hb
            cases hb
            omega
          · intro e' he' hpre'
            rcases List.mem_cons.mp he' with rfl | hmem
            · exact hx
            · exact hB e' hmem hpre'
        · rw [if_neg hlt] at h
          obtain ⟨hA, hB⟩ := ih h
          have hbest : e.key.length ≤ best.key.length := hA best rfl
          refine ⟨?_, ?_⟩
          · intro b hb
            cases hb
            exact hbest
          · intro e' he' hpre'
            rcases List.mem_cons.mp he' with rfl | hmem
            · omega
            · exact hB e' hmem hpre'
      · rw [if_neg hpre] at h
        obtain ⟨hA, hB⟩ := ih h
        refine ⟨hA, ?_⟩
        intro e' he' hpre'
        rcases List.mem_cons.mp he' with rfl | hmem
        · exact absurd hpre' hpre
        · exact hB e' hmem hpre'

theorem trieFindEntry_min {tr : RuleTrie} {suffix : Term} {e : TrieEntry}
    (h : trieFindEntry tr suffix = some e) :
    ∀ e' ∈ tr, e'.key.isPrefixOf suffix = true →
      e.key.length ≤ e'.key.length :=
  (trieFindGo_min h).2

/-- The scan of `simplify` stops at the leftmost position where the trie
matches. -/
theorem trieScan_leftmost {tr : RuleTrie} :
    ∀ {t : Term} {i rid : Nat}, trieScan tr t = some (i, rid) →
      ∀ j < i, trieFind tr (t.drop j) = none := by
  intro t
  induction t with
  | nil => intro i rid h; simp [trieScan] at h
  | cons a rest ih =>
    intro i rid h
    simp only [trieScan] at h
    cases hf : trieFind tr (a :: rest) with
    | some rid' =>
      rw [hf] at h
      cases h
      intro j hj
      cases hj
    | none =>
      rw [hf] at h
      cases hs : trieScan tr rest with
      | none => rw [hs] at h; cases h
      | some p =>
        rw [hs] at h
        obtain ⟨i', rid'⟩ := p
        cases h
        intro j hj
        cases j with
        | zero => exact hf
        | succ j' => exact ih hs j' (by omega)

/-- The rule index `simplify`'s scan returns is the trie's lookup at the
match position. -/
theorem trieScan_find {tr : RuleTrie} :
    ∀ {t : Term} {i rid : Nat}, trieScan tr t = some (i, rid) →
      trieFind tr (t.drop i) = some rid := by
  intro t
  induction t with
  | nil => intro i rid h; simp [trieScan] at h
  | cons a rest ih =>
    intro i rid h
    simp only [trieScan] at h
    cases hf : trieFind tr (a :: rest) with
    | some rid' =>
      rw [hf] at h
      cases h
      exact hf
    | none =>
      rw [hf] at h
      cases hs : trieScan tr rest with
      | none => rw [hs] at h; cases h
      | some p =>
        rw [hs] at h
        obtain ⟨i', rid'⟩ := p
        cases h
        exact ih hs

/-! ### Simplification preserves non-emptiness -/

theorem simplifyGo_ne_nil {st : RwState} (hor : Oriented st) (hwf : WFTrie st) :
    ∀ (fuel : Nat) (t : Term) (steps : RewritePath), t ≠ [] →
      (simplifyGo st fuel t steps).1 ≠ [] := by
  intro fuel
  induction fuel with
  | zero => intro t steps ht; exact ht
  | succ fuel ih =>
    intro t steps ht
    simp only [simplifyGo]
    cases hstep : simplifyStep st t with
    | none => exact ht
    | some pr =>
      obtain ⟨t', s⟩ := pr
      obtain ⟨i, rid, r, X, Y, hr, _, _, ht', _⟩ := simplifyStep_some hwf hstep
      have hmem : r ∈ st.rules := by
        obtain ⟨hlen, hget⟩ := List.getElem?_eq_some.mp hr
        rw [← hget]
        exact List.getElem_mem _
      have hrne := (hor r hmem).1
      refine ih t' (steps ++ [s]) ?_
      rw [ht']
      intro hnil
      rcases List.append_eq_nil.mp hnil with ⟨h1, _⟩
      rcases List.append_eq_nil.mp h1 with ⟨_, h2⟩
      exact hrne h2

theorem simplify_ne_nil {st : RwState} (hor : Oriented st) (hwf : WFTrie st)
    {t : Term} (ht : t ≠ []) : (simplify st t).1 ≠ [] :=
  simplifyGo_ne_nil hor hwf _ t [] ht

/-! ### State transforms that leave the rule list alone -/

theorem recordRewriteLoop_rules (st : RwState) (b : Term) (p : RewritePath) :
    (recordRewriteLoop st b p).rules = st.rules := by
  unfold recordRewriteLoop
  split
  · rfl
  · split <;> rfl

theorem recordRewriteLoop_trie (st : RwState) (b : Term) (p : RewritePath) :
    (recordRewriteLoop st b p).trie = st.trie := by
  unfold recordRewriteLoop
  split
  · rfl
  · split <;> rfl

theorem checkMergedAssociatedType_rules (st : RwState) (l r : Term) :
    (checkMergedAssociatedType st l r).rules = st.rules := by
  unfold checkMergedAssociatedType
  split <;> rfl

theorem markLoopDeleted_rules (st : RwState) (i : Nat) :
    (markLoopDeleted st i).rules = st.rules := by
  unfold markLoopDeleted
  split <;> rfl

theorem scanLoops_rules (st : RwState) : (scanLoops st).2.rules = st.rules := by
  unfold scanLoops
  refine foldl_preserve _
    (fun acc : List (Nat × Nat) × RwState => acc.2.rules) ?_ _ _
  intro acc loopID
  dsimp only
  split
  · rfl
  · split
    · rfl
    · split
      · exact markLoopDeleted_rules _ _
      · rfl

/-! ### Tracking rules through the minimization passes

Minimization never appends or removes a rule; it only flips flags.  The
relation below records what survives: the sides of every rule, its
permanent bit, and — for permanent rules — its redundant bit. -/

def preservesRules (st st' : RwState) : Prop :=
  st'.rules.length = st.rules.length ∧
  ∀ (i : Nat) (r : Rule), st.rules[i]? = some r →
    ∃ r' : Rule, st'.rules[i]? = some r' ∧
      r'.lhs = r.lhs ∧ r'.rhs = r.rhs ∧ r'.permanentFlag = r.permanentFlag ∧
      (r.permanentFlag = true → r'.redundantFlag = r.redundantFlag)

theorem preservesRules_refl (st : RwState) : preservesRules st st :=
  ⟨rfl, fun _ r h => ⟨r, h, rfl, rfl, rfl, fun _ => rfl⟩⟩

theorem preservesRules_trans {a b c : RwState} (h1 : preservesRules a b)
    (h2 : preservesRules b c) : preservesRules a c := by
  refine ⟨h2.1.trans h1.1, ?_⟩
  intro i r hr
  obtain ⟨r1, hr1, e1, e2, e3, e4⟩ := h1.2 i r hr
  obtain ⟨r2, hr2, f1, f2, f3, f4⟩ := h2.2 i r1 hr1
  refine ⟨r2, hr2, f1.trans e1, f2.trans e2, f3.trans e3, ?_⟩
  intro hp
  rw [f4 (e3.symm ▸ hp), e4 hp]

theorem preservesRules_of_rules_eq {a b : RwState} (h : b.rules = a.rules) :
    preservesRules a b := by
  refine ⟨by rw [h], ?_⟩
  intro i r hr
  exact ⟨r, by rw [h]; exact hr, rfl, rfl, rfl, fun _ => rfl⟩

/-- `setRuleAt` with a flag update that keeps the sides and the permanent
bit, and keeps the redundant bit whenever the touched rule is permanent. -/
theorem preservesRules_setRuleAt (st : RwState) (j : Nat) (f : Rule → Rule)
    (hf : ∀ r, (f r).lhs = r.lhs ∧ (f r).rhs = r.rhs ∧
      (f r).permanentFlag = r.permanentFlag ∧
      (r.permanentFlag = true → (f r).redundantFlag = r.redundantFlag)) :
    preservesRules st (setRuleAt st j f) := by
  unfold setRuleAt
  cases hj : st.rules[j]? with
  | none => exact preservesRules_refl st
  | some r0 =>
    refine ⟨by simp, ?_⟩
    intro i r hri
    by_cases hij : i = j
    · subst hij
      rw [hj] at hri
      obtain rfl := Option.some.inj hri
      obtain ⟨e1, e2, e3, e4⟩ := hf r0
      refine ⟨f r0, ?_, e1, e2, e3, e4⟩
      have hlen : i < st.rules.length := (List.getElem?_eq_some.mp hj).1
      simp [List.getElem?_set, hlen]
    · refine ⟨r, ?_, rfl, rfl, rfl, fun _ => rfl⟩
      simp only [List.getElem?_set]
      rw [if_neg (fun h => hij h.symm)]
      exact hri

theorem deleteRule_rules (st : RwState) (rid : Nat) (repl : RewritePath) :
    (deleteRule st rid repl).rules = st.rules := rfl

/-- The candidate selected for deletion is a non-permanent rule of the
system accepted by the pass's filter. -/
theorem selectCandidate_spec (st : RwState) (filter : Nat → Bool)
    (cands : List (Nat × Nat)) :
    ∀ pair, selectCandidate st filter cands = some pair →
      ∃ r, st.rules[pair.2]? = some r ∧ r.permanentFlag = false ∧
        filter pair.2 = true := by
  unfold selectCandidate
  refine foldl_inv
    (fun found : Option (Nat × Nat) => ∀ pair : Nat × Nat, found = some pair →
      ∃ r : Rule, st.rules[pair.2]? = some r ∧ r.permanentFlag = false ∧
        filter pair.2 = true) _ ?_ cands none (fun pair h => nomatch h)
  intro found cand hfound pair hpair
  split at hpair
  · exact hfound pair hpair
  · rename_i rule hrule
    split at hpair
    · exact hfound pair hpair
    · split at hpair
      · exact hfound pair hpair
      · rename_i hperm hfilt
        split at hpair
        · cases hpair
          exact ⟨rule, hrule, by simpa using hperm, by simpa using hfilt⟩
        · split at hpair
          · exact hfound pair hpair
          · split at hpair
            · cases hpair
              exact ⟨rule, hrule, by simpa using hperm, by simpa using hfilt⟩
            · exact hfound pair hpair

theorem preservesRules_setRedundant (st : RwState) (j : Nat)
    (hj : ∀ r, st.rules[j]? = some r → r.permanentFlag = false) :
    preservesRules st (setRuleAt st j (fun r => { r with redundantFlag := true })) := by
  unfold setRuleAt
  cases hr : st.rules[j]? with
  | none => exact preservesRules_refl st
  | some r0 =>
    refine ⟨by simp, ?_⟩
    intro i r hri
    by_cases hij : i = j
    · subst hij
      rw [hr] at hri
      obtain rfl := Option.some.inj hri
      have hperm := hj r0 hr
      have hlen : i < st.rules.length := (List.getElem?_eq_some.mp hr).1
      refine ⟨{ r0 with redundantFlag := true }, ?_, rfl, rfl, rfl, ?_⟩
      · simp [List.getElem?_set, hlen]
      · intro hp
        rw [hperm] at hp
        cases hp
    · refine ⟨r, ?_, rfl, rfl, rfl, fun _ => rfl⟩
      simp only [List.getElem?_set]
      rw [if_neg (fun h => hij h.symm)]
      exact hri

theorem findRuleToDelete_preserves (st : RwState)
    (filter : RwState → Nat → Bool) :
    preservesRules st (findRuleToDelete st filter).2 := by
  have hscan : preservesRules st (scanLoops st).2 :=
    preservesRules_of_rules_eq (scanLoops_rules st)
  simp only [findRuleToDelete]
  split
  · exact hscan
  · rename_i pair loopID ruleID hsel
    split
    · exact hscan
    · rename_i loop hloop
      obtain ⟨r, hr, hperm, _⟩ := selectCandidate_spec _ _ _ _ hsel
      refine preservesRules_trans hscan ?_
      refine preservesRules_trans
        (preservesRules_of_rules_eq
          (markLoopDeleted_rules (scanLoops st).2 loopID)) ?_
      refine preservesRules_setRedundant _ _ ?_
      intro r' hr'
      rw [markLoopDeleted_rules] at hr'
      rw [hr] at hr'
      cases hr'
      exact hperm

theorem findRuleToDelete_some {st : RwState}
    {filter : RwState → Nat → Bool} {rid : Nat} {repl : RewritePath}
    (h : (findRuleToDelete st filter).1 = some (rid, repl)) :
    ∃ r, st.rules[rid]? = some r ∧ r.permanentFlag = false := by
  simp only [findRuleToDelete] at h
  split at h
  · cases h
  · rename_i pair loopID ruleID hsel
    split at h
    · cases h
    · rename_i loop hloop
      simp only [Option.some.injEq, Prod.mk.injEq] at h
      obtain ⟨hrid, _⟩ := h
      subst hrid
      obtain ⟨r, hr, hperm, _⟩ := selectCandidate_spec _ _ _ _ hsel
      rw [scanLoops_rules] at hr
      exact ⟨r, hr, hperm⟩

theorem checkMergedAssociatedType_trie (st : RwState) (l r : Term) :
    (checkMergedAssociatedType st l r).trie = st.trie := by
  unfold checkMergedAssociatedType
  split <;> rfl

theorem propagateExplicitBits_preserves (st : RwState) :
    preservesRules st (propagateExplicitBits st) := by
  unfold propagateExplicitBits
  refine foldl_rel preservesRules preservesRules_refl
    (fun _ _ _ h1 h2 => preservesRules_trans h1 h2) _ ?_ _ _
  intro b loop
  dsimp only
  split
  · refine foldl_rel preservesRules preservesRules_refl
      (fun _ _ _ h1 h2 => preservesRules_trans h1 h2) _ ?_ _ _
    intro b' rid
    dsimp only
    split
    · split
      · exact preservesRules_setRuleAt _ _ _
          (fun q => ⟨rfl, rfl, rfl, fun _ => rfl⟩)
      · exact preservesRules_refl _
    · exact preservesRules_refl _
  · exact preservesRules_refl _

theorem performHomotopyReductionGo_preserves (filter : RwState → Nat → Bool) :
    ∀ (fuel : Nat) (st : RwState),
      preservesRules st (performHomotopyReductionGo filter fuel st) := by
  intro fuel
  induction fuel with
  | zero => intro st; exact preservesRules_refl st
  | succ fuel ih =>
    intro st
    simp only [performHomotopyReductionGo]
    split
    · exact findRuleToDelete_preserves st filter
    · rename_i ruleID repl hsome
      refine preservesRules_trans (findRuleToDelete_preserves st filter) ?_
      refine preservesRules_trans
        (preservesRules_of_rules_eq
          (deleteRule_rules (findRuleToDelete st filter).2 ruleID repl)) ?_
      exact ih _

theorem performHomotopyReduction_preserves (st : RwState)
    (filter : RwState → Nat → Bool) :
    preservesRules st (performHomotopyReduction st filter) :=
  performHomotopyReductionGo_preserves filter _ st

theorem minimizeRewriteSystem_preserves (minConf : RwState → List Nat)
    (st : RwState) : preservesRules st (minimizeRewriteSystem minConf st) := by
  simp only [minimizeRewriteSystem]
  exact preservesRules_trans (propagateExplicitBits_preserves st)
    (preservesRules_trans (performHomotopyReduction_preserves _ _)
      (preservesRules_trans (performHomotopyReduction_preserves _ _)
        (performHomotopyReduction_preserves _ _)))

theorem oriented_of_rules_eq {a b : RwState} (h : b.rules = a.rules)
    (hor : Oriented a) : Oriented b := by
  intro r hr
  exact hor r (h ▸ hr)

theorem oriented_of_preserves {a b : RwState} (h : preservesRules a b)
    (hor : Oriented a) : Oriented b := by
  intro r' hr'
  obtain ⟨i, hi⟩ := List.mem_iff_getElem?.mp hr'
  have hlt : i < a.rules.length := by
    have h1 := (List.getElem?_eq_some.mp hi).1
    have h2 := h.1
    omega
  have ha : a.rules[i]? = some a.rules[i] := List.getElem?_eq_getElem hlt
  obtain ⟨r'', hr'', e1, e2, _, _⟩ := h.2 i _ ha
  rw [hi] at hr''
  obtain rfl := Option.some.inj hr''
  have hmem : a.rules[i] ∈ a.rules := List.getElem_mem _
  obtain ⟨hne, hgt⟩ := hor _ hmem
  rw [← e1, ← e2] at hgt
  rw [← e2] at hne
  exact ⟨hne, hgt⟩

/-- Structural characterization of a successful `addRule`: either the
simplified sides coincide (no rule appended, a loop possibly recorded), or
the oriented rule is appended and indexed. -/
theorem addRule_spec {st : RwState} {lhs0 rhs0 : Term}
    {path : Option RewritePath} {b : Bool} {st' : RwState}
    (h : addRule st lhs0 rhs0 path = some (b, st')) :
    (b = false ∧
      termCmp (simplify st lhs0).1 (simplify st rhs0).1 = .eq ∧
      st'.rules = st.rules ∧ st'.trie = st.trie ∧
      st' = (match path with
             | some p =>
               recordRewriteLoop st (simplify st lhs0).1
                 (pathInvert (simplify st lhs0).2 ++ p ++ (simplify st rhs0).2)
             | none => st)) ∨
    (b = true ∧ ∃ l r : Term,
      termCmp l r = .gt ∧
      ((termCmp (simplify st lhs0).1 (simplify st rhs0).1 = .gt ∧
          l = (simplify st lhs0).1 ∧ r = (simplify st rhs0).1) ∨
       (termCmp (simplify st lhs0).1 (simplify st rhs0).1 = .lt ∧
          l = (simplify st rhs0).1 ∧ r = (simplify st lhs0).1)) ∧
      st'.rules = st.rules ++ [{ lhs := l, rhs := r }] ∧
      (trieInsert st.trie l st.rules.length).1 = none ∧
      st'.trie = (trieInsert st.trie l st.rules.length).2) := by
  cases path with
  | none =>
    simp only [addRule] at h
    split at h
    · rename_i heq
      simp only [Option.some.injEq, Prod.mk.injEq] at h
      obtain ⟨rfl, rfl⟩ := h
      exact Or.inl ⟨rfl, heq, rfl, rfl, rfl⟩
    · rename_i heq
      split at h
      · cases h
      · rename_i hins
        simp only [Option.some.injEq, Prod.mk.injEq] at h
        obtain ⟨rfl, rfl⟩ := h
        right
        refine ⟨rfl, ?_⟩
        rcases hcc : termCmp (simplify st lhs0).1 (simplify st rhs0).1 with
          _ | _ | _
        · rw [hcc] at hins
          rw [if_pos rfl] at hins
          refine ⟨(simplify st rhs0).1, (simplify st lhs0).1,
            (termCmpLaws.gt_iff_lt _ _).mpr hcc, Or.inr ⟨rfl, rfl, rfl⟩, ?_,
            ?_, ?_⟩
          · simp [checkMergedAssociatedType_rules, hcc]
          · first
              | exact hins
              | (simp only [recordRewriteLoop_trie] at hins; exact hins)
          · simp [checkMergedAssociatedType_trie, hcc]
        · first
            | exact absurd rfl heq
            | (rw [hcc] at heq; exact absurd rfl heq)
            | exact (heq hcc).elim
        · rw [hcc] at hins
          rw [if_neg (by decide : ¬(Ordering.gt = Ordering.lt))] at hins
          refine ⟨(simplify st lhs0).1, (simplify st rhs0).1, hcc,
            Or.inl ⟨rfl, rfl, rfl⟩, ?_, ?_, ?_⟩
          · simp [checkMergedAssociatedType_rules, hcc]
          · first
              | exact hins
              | (simp only [recordRewriteLoop_trie] at hins; exact hins)
          · simp [checkMergedAssociatedType_trie, hcc]
  | some p =>
    simp only [addRule] at h
    split at h
    · rename_i heq
      simp only [Option.some.injEq, Prod.mk.injEq] at h
      obtain ⟨rfl, rfl⟩ := h
      refine Or.inl ⟨rfl, heq, ?_, ?_, rfl⟩
      · exact recordRewriteLoop_rules _ _ _
      · exact recordRewriteLoop_trie _ _ _
    · rename_i heq
      split at h
      · cases h
      · rename_i hins
        simp only [Option.some.injEq, Prod.mk.injEq] at h
        obtain ⟨rfl, rfl⟩ := h
        right
        refine ⟨rfl, ?_⟩
        rcases hcc : termCmp (simplify st lhs0).1 (simplify st rhs0).1 with
          _ | _ | _
        · rw [hcc] at hins
          rw [if_pos rfl] at hins
          refine ⟨(simplify st rhs0).1, (simplify st lhs0).1,
            (termCmpLaws.gt_iff_lt _ _).mpr hcc, Or.inr ⟨rfl, rfl, rfl⟩, ?_,
            ?_, ?_⟩
          · simp [checkMergedAssociatedType_rules, recordRewriteLoop_rules, hcc]
          · first
              | exact hins
              | (simp only [recordRewriteLoop_trie] at hins; exact hins)
          · simp [checkMergedAssociatedType_trie, recordRewriteLoop_trie, hcc]
        · first
            | exact absurd rfl heq
            | (rw [hcc] at heq; exact absurd rfl heq)
            | exact (heq hcc).elim
        · rw [hcc] at hins
          rw [if_neg (by decide : ¬(Ordering.gt = Ordering.lt))] at hins
          refine ⟨(simplify st lhs0).1, (simplify st rhs0).1, hcc,
            Or.inl ⟨rfl, rfl, rfl⟩, ?_, ?_, ?_⟩
          · simp [checkMergedAssociatedType_rules, recordRewriteLoop_rules, hcc]
          · first
              | exact hins
              | (simp only [recordRewriteLoop_trie] at hins; exact hins)
          · simp [checkMergedAssociatedType_trie, recordRewriteLoop_trie, hcc]

/-! ### Outcomes of one completion iteration -/

theorem completionBody_failed {g : ProtocolGraph} {mi md : Nat}
    {st : OldState} {steps : Nat} {r : CompletionResult} {st' : OldState}
    {steps' : Nat}
    (h : completionBody g mi md st steps = .failed r st' steps') :
    steps' = steps + 1 ∧
      (r = .maxIterations ∧ mi ≤ steps + 1 ∨
       r = .maxDepth ∧ ∃ nr, st'.rules[st.rules.length]? = some nr ∧
         md < nr.lhs.length) := by
  simp only [completionBody] at h
  split at h
  · cases h
  · rename_i i j rest heq
    split at h
    · split at h
      · cases h
      · rename_i pair hpair
        split at h
        · cases h
        · split at h
          · rename_i hmi
            cases h
            exact ⟨rfl, Or.inl ⟨rfl, hmi⟩⟩
          · split at h
            · cases h
            · rename_i nr hnr
              split at h
              · rename_i hmd
                cases h
                exact ⟨rfl, Or.inr ⟨rfl, nr, hnr, hmd⟩⟩
              · cases h
    · cases h

theorem completionGo_empty {g : ProtocolGraph} {mi md : Nat} {st : OldState}
    {steps : Nat} (hq : st.worklist = []) :
    completionGo g mi md st steps = (.success, finalSimplifyRhs st) := by
  have hb : completionBody g mi md st steps = .emptyQueue := by
    simp only [completionBody, hq]
  rw [completionGo]
  split
  · rfl
  · rename_i heq
    rw [hb] at heq
    cases heq
  · rename_i heq
    rw [hb] at heq
    cases heq

theorem machineComputeCompletion_abort {g : ProtocolGraph} {mi md : Nat}
    (bpm : OldState → (CompletionResult × Nat) × OldState) {fuel : Nat}
    {st : OldState}
    (h : (computeConfluentCompletion g mi md st).1 ≠ .success) :
    machineComputeCompletion g mi md bpm (fuel + 1) st =
      .aborted (computeConfluentCompletion g mi md st).1 := by
  simp only [machineComputeCompletion]
  cases hk : (computeConfluentCompletion g mi md st).1 with
  | success => exact absurd hk h
  | maxIterations => rfl
  | maxDepth => rfl

/-! ## The claims -/

/-- C1: completion of the first-generation system succeeds as soon as its
worklist of rule pairs is exhausted — the success path performs no
rule-count check — and a failure outcome is produced exactly by the two
ceilings: the counter of rules added during the run reaching
`maxIterations` (not the total rule count exceeding it), or a newly added
rule's depth exceeding `maxDepth`; on either failure the orchestrator
aborts the whole construction instead of continuing with a partial run. -/
theorem c1_completion_limits (g : ProtocolGraph) (mi md : Nat)
    (st : OldState) (bpm : OldState → (CompletionResult × Nat) × OldState)
    (fuel : Nat) :
    (st.worklist = [] →
      computeConfluentCompletion g mi md st = (.success, finalSimplifyRhs st)) ∧
    (∀ (st0 : OldState) (steps : Nat) (r : CompletionResult) (st' : OldState)
        (steps' : Nat),
      completionBody g mi md st0 steps = .failed r st' steps' →
      steps' = steps + 1 ∧
        (r = .maxIterations ∧ mi ≤ steps + 1 ∨
         r = .maxDepth ∧ ∃ nr, st'.rules[st0.rules.length]? = some nr ∧
           md < nr.lhs.length)) ∧
    ((computeConfluentCompletion g mi md st).1 ≠ .success →
      machineComputeCompletion g mi md bpm (fuel + 1) st =
        .aborted (computeConfluentCompletion g mi md st).1) := by
  refine ⟨?_, ?_, ?_⟩
  · intro hq
    unfold computeConfluentCompletion
    exact completionGo_empty hq
  · intro st0 steps r st' steps' h
    exact completionBody_failed h
  · intro h
    exact machineComputeCompletion_abort bpm h

def c1Rule : OldRule := { lhs := [.name 1], rhs := [.name 0] }

def c1State : OldState := { rules := [c1Rule], worklist := [], merged := [] }

/-- C1 counterexample: with the iteration ceiling set to 0 the system
already holds more rules than the ceiling, yet completion reports success,
because the worklist is empty and the ceiling counts only rules added
during the run — there is no rule-count check. -/
theorem c1_counterexample :
    0 < c1State.rules.length ∧
    computeConfluentCompletion (fun _ _ => false) 0 5 c1State =
      (.success, c1State) := by
  constructor
  · decide
  · unfold computeConfluentCompletion
    rw [completionGo_empty rfl]
    have hf : finalSimplifyRhs c1State = c1State := by decide
    rw [hf]

/-- C2: on each iteration `simplify` scans the term left to right and
consults the trie at every position; the rule applied is found at the
leftmost matching position, and among the trie keys matching there its
left-hand side is the SHORTEST (the trie is declared with
`MatchKind::Shortest`), not the longest; the occurrence is rewritten in
place, the rewrite step is recorded, and the loop runs to a fixed
point. -/
theorem c2_simplify_shortest (st : RwState) (t : Term) :
    (∀ (t' : Term) (s : RewriteStep), WFTrie st →
      simplifyStep st t = some (t', s) →
      ∃ (i rid : Nat) (r : Rule) (X Y : Term),
        st.rules[rid]? = some r ∧ t = X ++ r.lhs ++ Y ∧ X = t.take i ∧
        t' = X ++ r.rhs ++ Y ∧
        s = RewriteStep.forRewriteRule i (t.length - r.lhs.length - i) rid
          false ∧
        (∀ j < i, trieFind st.trie (t.drop j) = none) ∧
        (∀ e' ∈ st.trie, e'.key.isPrefixOf (t.drop i) = true →
          r.lhs.length ≤ e'.key.length)) ∧
    (Oriented st → WFTrie st → simplifyStep st (simplify st t).1 = none) := by
  constructor
  · intro t' s hwf h
    obtain ⟨i2, rid2, r2, X, Y, hr2, ht, hX, ht', hs⟩ := simplifyStep_some hwf h
    have h0 := h
    unfold simplifyStep at h0
    cases hscan : trieScan st.trie t with
    | none => rw [hscan] at h0; cases h0
    | some p =>
      obtain ⟨i, rid⟩ := p
      simp only [hscan] at h0
      cases hrr : st.rules[rid]? with
      | none =>
        simp only [hrr] at h0
        exact Option.noConfusion h0
      | some r =>
        simp only [hrr] at h0
        simp only [Option.some.injEq, Prod.mk.injEq] at h0
        obtain ⟨ht0, hs0⟩ := h0
        rw [hs] at hs0
        simp only [RewriteStep.forRewriteRule, RewriteStep.mk.injEq] at hs0
        obtain ⟨_, hii, _, hrid, _⟩ := hs0
        subst hii
        subst hrid
        have hre : r2 = r := by
          rw [hr2] at hrr
          exact Option.some.inj hrr
        subst hre
        refine ⟨i, rid, r2, X, Y, hr2, ht, hX, ht', hs, ?_, ?_⟩
        · exact trieScan_leftmost hscan
        · have hfind := trieScan_find hscan
          unfold trieFind at hfind
          cases hfe : trieFindEntry st.trie (t.drop i) with
          | none => rw [hfe] at hfind; cases hfind
          | some e =>
            rw [hfe] at hfind
            have hval : e.value = rid := Option.some.inj hfind
            obtain ⟨hmem, _⟩ := trieFindEntry_some hfe
            obtain ⟨r0, hr0, hkey⟩ := hwf e hmem
            rw [hval, hr2] at hr0
            have : r0 = r2 := (Option.some.inj hr0).symm
            subst this
            intro e' he' hpre'
            rw [hkey]
            exact trieFindEntry_min hfe e' he' hpre'
  · intro hor hwf
    exact simplify_normal_form hor hwf t

def c2R0 : Rule := { lhs := [.proto 0, .name 5], rhs := [.proto 0] }

def c2R1 : Rule := { lhs := [.proto 0, .name 5, .name 6], rhs := [.proto 0] }

def c2Trie : RuleTrie :=
  (trieInsert (trieInsert [] c2R0.lhs 0).2 c2R1.lhs 1).2

def c2State : RwState :=
  { rules := [c2R0, c2R1], trie := c2Trie, loops := [], relations := [],
    mergedAssociatedTypes := [], recordLoopsFlag := false, protos := [] }

def c2Term : Term := [.proto 0, .name 5, .name 6]

/-- C2 counterexample: the longer rule's left-hand side matches the whole
term at position 0, yet the trie lookup returns the SHORTER rule and
`simplify` rewrites with it, so the result differs from the longest-match
prediction of the spec. -/
theorem c2_counterexample :
    c2R1.lhs.isPrefixOf c2Term = true ∧ c2R1.lhs.length = 3 ∧
    c2R0.lhs.length = 2 ∧
    trieFind c2State.trie c2Term = some 0 ∧
    (simplify c2State c2Term).1 = [Symbol.proto 0, Symbol.name 6] ∧
    (simplify c2State c2Term).1 ≠ [Symbol.proto 0] := by
  refine ⟨rfl, rfl, rfl, rfl, ?_, ?_⟩ <;> decide

/-- C3: the failure signal is not "conflicting or unresolved" alone: an
unresolved symbol in a non-permanent rule is ignored when the rule is
redundant.  `hadError` holds exactly when some non-permanent rule is
flagged conflicting, or is non-redundant and contains an unresolved name
symbol. -/
theorem c3_hadError_guard (st : RwState) :
    hadError st = true ↔
      ∃ r ∈ st.rules, r.permanentFlag = false ∧
        (r.conflictingFlag = true ∨
          (r.redundantFlag = false ∧ r.containsUnresolvedSymbols = true)) := by
  unfold hadError
  rw [List.any_eq_true]
  refine exists_congr fun r => and_congr_right fun _ => ?_
  constructor
  · intro h
    simp only [Bool.and_eq_true, Bool.or_eq_true, Bool.not_eq_true'] at h
    exact h
  · intro h
    simp only [Bool.and_eq_true, Bool.or_eq_true, Bool.not_eq_true']
    exact h

def c3Rule : Rule :=
  { lhs := [.proto 0, .name 3], rhs := [.proto 0], redundantFlag := true }

def c3State : RwState :=
  { rules := [c3Rule], trie := [], loops := [], relations := [],
    mergedAssociatedTypes := [], recordLoopsFlag := false, protos := [] }

/-- C3 counterexample: a non-permanent, non-conflicting rule that contains
an unresolved name symbol but is flagged redundant does not raise the
failure signal, contradicting "true exactly when some non-permanent rule
is flagged conflicting or contains an unresolved name symbol". -/
theorem c3_counterexample :
    c3Rule.permanentFlag = false ∧
    c3Rule.containsUnresolvedSymbols = true ∧
    c3Rule.conflictingFlag = false ∧
    hadError c3State = false := by
  refine ⟨rfl, ?_, rfl, ?_⟩ <;> decide

/-- C5: `simplify` halts on every finite input term: each rewrite step
strictly decreases the term in the well-founded term order, and the loop
reaches a fixed point — no rule of the system applies to the result. -/
theorem c5_simplify_terminates (st : RwState) (t : Term) :
    (∀ (t' : Term) (s : RewriteStep), Oriented st → WFTrie st →
      simplifyStep st t = some (t', s) → termCmp t' t = .lt) ∧
    (Oriented st → WFTrie st → simplifyStep st (simplify st t).1 = none) := by
  constructor
  · intro t' s hor hwf h
    exact (simplifyStep_decreases hor hwf h).1
  · intro hor hwf
    exact simplify_normal_form hor hwf t

/-- C6: orientation invariant — every rule retained by `addRule` has its
left-hand side strictly greater than its right-hand side in the term
order, and the minimization passes, which only flip flags, preserve the
invariant. -/
theorem c6_orientation (st : RwState) (lhs0 rhs0 : Term)
    (path : Option RewritePath) (minConf : RwState → List Nat) :
    (∀ (b : Bool) (st' : RwState), Oriented st → WFTrie st →
      lhs0 ≠ [] → rhs0 ≠ [] →
      addRule st lhs0 rhs0 path = some (b, st') → Oriented st') ∧
    (Oriented st → Oriented (minimizeRewriteSystem minConf st)) := by
  constructor
  · intro b st' hor hwf hl hr h
    rcases addRule_spec h with ⟨_, _, hrules, _, _⟩ |
      ⟨_, l, r, hgt, hlr, hrules, _, _⟩
    · exact oriented_of_rules_eq hrules hor
    · intro q hq
      rw [hrules] at hq
      rcases List.mem_append.mp hq with hmem | hmem
      · exact hor q hmem
      · have hq' : q = { lhs := l, rhs := r } := by simpa using hmem
        subst hq'
        refine ⟨?_, hgt⟩
        show r ≠ []
        rcases hlr with ⟨_, _, hrj⟩ | ⟨_, _, hrj⟩
        · rw [hrj]
          exact simplify_ne_nil hor hwf hr
        · rw [hrj]
          exact simplify_ne_nil hor hwf hl
  · intro hor
    exact oriented_of_preserves (minimizeRewriteSystem_preserves minConf st) hor

/-- C7: `addRule` simplifies both sides first; when the simplified sides
coincide it appends no rule and returns false, but the trivial loop is
recorded only through `recordRewriteLoop` — it also requires loop
recording to be enabled and the basepoint to lie in the minimization
domain, not merely that a justification path was supplied; otherwise the
pair is oriented by the term order, the rule is appended, its left-hand
side is indexed in the trie (aborting on a duplicate binding) and true is
returned.  No overlap pairs are enqueued by this (second-generation)
`addRule`. -/
theorem c7_addRule_loop_recording (st : RwState) (lhs0 rhs0 : Term)
    (path : Option RewritePath) (b : Bool) (st' : RwState) :
    (addRule st lhs0 rhs0 path = some (b, st') → b = false →
      termCmp (simplify st lhs0).1 (simplify st rhs0).1 = .eq ∧
      st'.rules = st.rules ∧
      (st.recordLoopsFlag = false → st' = st) ∧
      (path = none → st' = st)) ∧
    (addRule st lhs0 rhs0 path = some (b, st') → b = true →
      ∃ l r : Term, termCmp l r = .gt ∧
        ((termCmp (simplify st lhs0).1 (simplify st rhs0).1 = .gt ∧
            l = (simplify st lhs0).1 ∧ r = (simplify st rhs0).1) ∨
         (termCmp (simplify st lhs0).1 (simplify st rhs0).1 = .lt ∧
            l = (simplify st rhs0).1 ∧ r = (simplify st lhs0).1)) ∧
        st'.rules = st.rules ++ [{ lhs := l, rhs := r }] ∧
        (trieInsert st.trie l st.rules.length).1 = none ∧
        st'.trie = (trieInsert st.trie l st.rules.length).2) := by
  constructor
  · intro h hb
    rcases addRule_spec h with ⟨_, heq, hrules, _, hst⟩ | ⟨hb', _⟩
    · refine ⟨heq, hrules, ?_, ?_⟩
      · intro hflag
        cases path with
        | none => exact hst
        | some p =>
          rw [hst]
          simp [recordRewriteLoop, hflag]
      · intro hpath
        subst hpath
        exact hst
    · rw [hb'] at hb
      cases hb
  · intro h hb
    rcases addRule_spec h with ⟨hb', _⟩ | ⟨_, hrest⟩
    · rw [hb'] at hb
      cases hb
    · exact hrest

def c7State : RwState :=
  { rules := [], trie := [], loops := [], relations := [],
    mergedAssociatedTypes := [], recordLoopsFlag := false, protos := [] }

/-- C7 counterexample: the simplified sides coincide and a justification
path IS supplied, yet no rewrite loop is recorded, because loop recording
is disabled — refuting "recording a trivial rewrite loop exactly when a
justification path was supplied". -/
theorem c7_counterexample :
    c7State.recordLoopsFlag = false ∧
    addRule c7State [Symbol.proto 0] [Symbol.proto 0] (some []) =
      some (false, c7State) ∧
    c7State.loops = [] := by
  refine ⟨rfl, ?_, rfl⟩
  decide

/-- C8: homotopy reduction never deletes a permanent rule: the candidate
selection of `findRuleToDelete` skips permanent rules (even when they
appear once in empty context in some loop), and across
`minimizeRewriteSystem` every permanent rule keeps its redundant flag
unchanged. -/
theorem c8_permanent_never_deleted (st : RwState)
    (minConf : RwState → List Nat) (filter : Nat → Bool)
    (cands : List (Nat × Nat)) :
    (∀ pair, selectCandidate st filter cands = some pair →
      ∃ r, st.rules[pair.2]? = some r ∧ r.permanentFlag = false) ∧
    (∀ (i : Nat) (r : Rule), st.rules[i]? = some r → r.permanentFlag = true →
      ∃ r', (minimizeRewriteSystem minConf st).rules[i]? = some r' ∧
        r'.permanentFlag = true ∧ r'.redundantFlag = r.redundantFlag) := by
  constructor
  · intro pair h
    obtain ⟨r, hr, hperm, _⟩ := selectCandidate_spec st filter cands pair h
    exact ⟨r, hr, hperm⟩
  · intro i r hr hperm
    obtain ⟨r', hr', _, _, e3, e4⟩ :=
      (minimizeRewriteSystem_preserves minConf st).2 i r hr
    exact ⟨r', hr', by rw [e3, hperm], e4 hperm⟩

def c4Key : Term := [.genericParam 0 0]

def c4R0d : Rule :=
  { lhs := [.genericParam 0 0, .layout [1]], rhs := [.genericParam 0 0] }

def c4R1d : Rule :=
  { lhs := [.genericParam 0 0, .layout [2]], rhs := [.genericParam 0 0] }

def c4TrieD : RuleTrie :=
  (trieInsert (trieInsert [] c4R0d.lhs 0).2 c4R1d.lhs 1).2

def c4StD : RwState :=
  { rules := [c4R0d, c4R1d], trie := c4TrieD, loops := [], relations := [],
    mergedAssociatedTypes := [], recordLoopsFlag := true, protos := [] }

def c4Pm0 : PMap :=
  { entries := [], checkedRulePairs := [], conflictsRecorded := [] }

/-- The disjoint scenario `\x7bT: layout [1], T: layout [2]\x7d`: record both
layout properties on the same key in rule order. -/
def c4StepD : Option (PMap × RwState) :=
  match addLayoutProperty c4Key (.layout [1]) 0 c4Pm0 c4StD with
  | none => none
  | some (pm, st) => addLayoutProperty c4Key (.layout [2]) 1 pm st

def c4R0s : Rule :=
  { lhs := [.genericParam 0 0, .layout [1, 2]], rhs := [.genericParam 0 0] }

def c4R1s : Rule :=
  { lhs := [.genericParam 0 0, .layout [1]], rhs := [.genericParam 0 0] }

def c4TrieS : RuleTrie :=
  (trieInsert (trieInsert [] c4R0s.lhs 0).2 c4R1s.lhs 1).2

def c4StS : RwState :=
  { rules := [c4R0s, c4R1s], trie := c4TrieS, loops := [], relations := [],
    mergedAssociatedTypes := [], recordLoopsFlag := true, protos := [] }

/-- The nested scenario: the second layout is contained in the first, so
the intersection equals the new side. -/
def c4StepS : Option (PMap × RwState) :=
  match addLayoutProperty c4Key (.layout [1, 2]) 0 c4Pm0 c4StS with
  | none => none
  | some (pm, st) => addLayoutProperty c4Key (.layout [1]) 1 pm st

/-- C4: layout unification on one key.  With disjoint layout classes the
intersection is empty: the second rule is flagged conflicting (the first
as well, the kinds agreeing), the failure signal is raised, and exactly
one conflict is reported.  When the intersection equals one side, no
conflict is reported; the superseded rule is recorded as redundant through
a derived relation and a justifying rewrite loop, and the layout rule of
the property bag moves to the stronger rule. -/
theorem c4_layout_unification :
    (c4StepD.map (fun p => p.1.conflictsRecorded) = some [(0, 1)] ∧
     c4StepD.map (fun p => p.2.rules.map Rule.conflictingFlag) =
       some [true, true] ∧
     c4StepD.map (fun p => hadError p.2) = some true) ∧
    (c4StepS.map (fun p => p.1.conflictsRecorded) = some [] ∧
     c4StepS.map (fun p => p.2.relations) =
       some [([Symbol.layout [1]],
              [Symbol.layout [1], Symbol.layout [1, 2]])] ∧
     c4StepS.map (fun p => p.2.rules.length) = some 2 ∧
     c4StepS.map (fun p => p.2.loops.length) = some 1 ∧
     c4StepS.map (fun p => p.1.entries.map PropBag.layoutRule) =
       some [some 1] ∧
     c4StepS.map (fun p => hadError p.2) = some false) := by
  refine ⟨⟨?_, ?_, ?_⟩, ?_, ?_, ?_, ?_, ?_, ?_⟩ <;> decide

/-- C9: a failed substitution does not abort the concrete contraction
pre-pass.  A member chain whose conformance or nested-type lookup fails
makes `substChain` return `none`, but `substTypeParameterTop` then falls
back to the unchanged type — every top-level substitution either leaves
the type unchanged or is a fully resolved chain — and
`performConcreteContraction` returns false (keep the original
requirements) exactly when no generic parameter has a usable
concrete-type or superclass entry, never because a lookup failed. -/
theorem c9_contraction_fallback (env : AstEnv) (reqs : List StructReq) :
    ((performConcreteContraction env reqs).1 = false ↔
      ((blockSuperclasses env (collectPhase reqs)).concreteTypes.isEmpty &&
       (blockSuperclasses env (collectPhase reqs)).superclasses.isEmpty)
        = true) ∧
    (∀ (cc : CCMaps) (t : Ty) (subj : Bool),
      substTypeParameterTop env cc t subj = t ∨
        ∃ c : Ty, substChain env t c =
          some (substTypeParameterTop env cc t subj)) := by
  constructor
  · simp only [performConcreteContraction]
    split
    · rename_i hempty
      simp [hempty]
    · rename_i hempty
      obtain ⟨res, hres⟩ := contractionFold_isSome env
        (blockSuperclasses env (collectPhase reqs)) reqs []
      simp only [hres]
      simp [hempty]
  · intro cc t subj
    simp only [substTypeParameterTop]
    split
    · exact Or.inl rfl
    · split
      · exact Or.inl rfl
      · rename_i c hc
        split
        · exact Or.inl rfl
        · rename_i res hres
          exact Or.inr ⟨c, hres⟩

def c9Env : AstEnv :=
  { lookupConf := fun _ _ => true
    assocWitness := fun t _ n => Ty.member t n none
    lookupNested := fun _ _ => none
    protoSuper := fun _ => none
    desugar := fun r => [r] }

def c9Reqs : List StructReq :=
  [ { req := .sameReq (.param 0) (.nominal 0), loc := 0, inferred := false },
    { req := .sameReq (.param 1) (.member (.param 0) 5 none), loc := 1,
      inferred := false },
    { req := .sameReq (.param 2) (.param 0), loc := 2, inferred := false } ]

/-- C9 counterexample: parameter 0 is concretely equal to a nominal type
that has no member named 5, so the substitution of `τ0.5` fails — yet the
pass does not abort: it returns true with a substituted requirement list
(the third requirement changed), not the unchanged original. -/
theorem c9_counterexample :
    substChain c9Env (Ty.member (Ty.param 0) 5 none) (Ty.nominal 0) = none ∧
    performConcreteContraction c9Env c9Reqs =
      (true,
        [ { req := .sameReq (.param 0) (.nominal 0), loc := 0,
            inferred := false },
          { req := .sameReq (.param 1) (.member (.param 0) 5 none), loc := 1,
            inferred := false },
          { req := .sameReq (.param 2) (.nominal 0), loc := 2,
            inferred := false } ]) ∧
    (performConcreteContraction c9Env c9Reqs).2 ≠ c9Reqs := by
  refine ⟨?_, ?_, ?_⟩ <;> decide

end Swift
